import Mathlib

/-!
# Verification of the memory-polisher core pipeline

Shallow embedding of the memory-polisher repository (JavaScript) in Lean 4,
together with theorems settling the frozen claims about its specification.

Modelling conventions used throughout this development:

* JavaScript strings are Lean `String`s; where a function slices or scans a
  string character by character we work on `String.toList` (the inputs of
  interest are ASCII, where JS UTF-16 code units and Lean characters agree).
* File contents that the code manipulates line by line are modelled as
  `List String` of lines; the JS expression `a + "\n" + b` corresponds to
  appending the two line lists (`String.split('\n')` distributes over a
  concatenation at a `"\n"` boundary).
* JS numbers are embedded as `Nat`/`Int`/`Rat`; every comparison embedded via
  `Rat` in this file is exact also in binary floating point at the magnitudes
  involved (small integers and halves), so no rounding is lost.
* Filesystem effects are made explicit: functions take and return maps from
  names to contents; `fs.access`-style existence checks become `Option`
  matches.
-/

namespace MemoryPolisher

/-! ## Small JS-faithful utilities -/

/-- JS `String.prototype.includes`: `jsIncludes s sub` is true iff `sub`
occurs contiguously inside `s`. -/
def jsIncludes (s sub : String) : Bool :=
  decide (sub.toList <:+: s.toList)

/-- Split a character list at every occurrence of `sep`, JS
`String.prototype.split(sep)` semantics: always returns at least one (possibly
empty) chunk. -/
def splitOnChar (sep : Char) (cs : List Char) : List (List Char) :=
  match cs with
  | [] => [[]]
  | c :: rest =>
    match splitOnChar sep rest with
    | [] => [[]]
    | h :: t => if c = sep then [] :: h :: t else (c :: h) :: t

theorem splitOnChar_ne_nil (sep : Char) (cs : List Char) : splitOnChar sep cs ≠ [] := by
  cases cs with
  | nil => simp [splitOnChar]
  | cons c rest =>
    simp only [splitOnChar]
    rcases h : splitOnChar sep rest with _ | ⟨h', t⟩
    · simp
    · by_cases hc : c = sep <;> simp [hc]

theorem splitOnChar_of_not_mem (sep : Char) (cs : List Char) (h : ∀ c ∈ cs, c ≠ sep) :
    splitOnChar sep cs = [cs] := by
  induction cs with
  | nil => rfl
  | cons c rest ih =>
    have hc : c ≠ sep := h c (by simp)
    have hrest := ih (fun x hx => h x (by simp [hx]))
    simp [splitOnChar, hrest, hc]

/-- The whitespace class of JS `String.prototype.trim` / regex `\s`
(restricted to its ASCII members, the only ones arising here). -/
def jsWS (c : Char) : Bool :=
  c = ' ' || c = '\t' || c = '\n' || c = '\r' || c = '\x0b' || c = '\x0c'

/-- Strip leading and trailing whitespace from a character list. -/
def jsTrimChars (cs : List Char) : List Char :=
  ((cs.dropWhile jsWS).reverse.dropWhile jsWS).reverse

/-- JS `String.prototype.trim` (executable embedding; Lean's own
`String.trim` is equivalent on these inputs but does not evaluate inside
the kernel). -/
def jsTrim (s : String) : String :=
  String.mk (jsTrimChars s.toList)

/-- The lines of a file's content: JS `content.split('\n')`. -/
def fileLines (content : String) : List String :=
  (splitOnChar '\n' content.toList).map (fun cs => String.mk cs)

/-- JS `lines.join('\n')`. -/
def joinLines (lines : List String) : String :=
  String.intercalate "\n" lines

/-! ## Similarity engine — skip heuristic (`src/core/similarity.js`, `shouldSkipPair`)

The JS comparison `lenDiff > Math.max(|a|,|b|) * 0.5` is exact in binary
floating point (`n * 0.5` is a halved integer, exactly representable at these
magnitudes), and an integer exceeds a half-integer `m/2` iff its double
exceeds `m`; we embed it as `2 * lenDiff > maxLen` over `Nat`. -/

/-- Embedding of `Similarity.shouldSkipPair` from `src/core/similarity.js`:
never skip substring pairs; skip when the length difference exceeds half of
the longer length; skip when the first three characters share no character. -/
def shouldSkipPair (tag1 tag2 : String) : Bool :=
  -- Never skip obvious substring/abbreviation pairs (e.g. "py" vs "python")
  if jsIncludes tag1 tag2 || jsIncludes tag2 tag1 then
    false
  else
    -- Skip if length difference is too large: `lenDiff > maxLen * 0.5`
    let lenDiff := ((tag1.length : ℤ) - (tag2.length : ℤ)).natAbs
    if 2 * lenDiff > max tag1.length tag2.length then
      true
    else
      -- Skip if no common characters in first 3 chars
      let prefix1 := tag1.toList.take 3
      let prefix2 := tag2.toList.take 3
      let hasCommonChar := prefix1.any (fun c => prefix2.contains c)
      if !hasCommonChar then true else false

/-- The specification's reading of the skip heuristic (§4.9.1): a pair is
skipped when conditions (i), (ii) and (iii) *all* hold.  Stated from the
spec's words, for comparison with `shouldSkipPair` (the code's behaviour). -/
def specSkipAllThree (tag1 tag2 : String) : Bool :=
  let notContained := !(jsIncludes tag1 tag2 || jsIncludes tag2 tag1)
  let lenDiff := ((tag1.length : ℤ) - (tag2.length : ℤ)).natAbs
  let bigLenGap := 2 * lenDiff > max tag1.length tag2.length
  let noShared := !((tag1.toList.take 3).any (fun c => (tag2.toList.take 3).contains c))
  notContained && bigLenGap && noShared

/-- Counterexample to claim C6: the pair `("abc", "xyz")` has no containment
(condition (i) holds) and no shared character among the first three characters
(condition (iii) holds), but a length difference of `0` (condition (ii)
fails).  The spec's conjunction of all three conditions says the pair is not
skipped, yet `shouldSkipPair` skips it. -/
theorem c6_skip_counterexample :
    shouldSkipPair "abc" "xyz" = true ∧ specSkipAllThree "abc" "xyz" = false := by
  constructor <;> decide

/-- C6, amended: `shouldSkipPair` skips a pair iff condition (i) holds
(neither string contains the other) *and at least one of* conditions (ii)
(length gap above half the longer length) or (iii) (no shared character among
the first three characters of each) holds — a disjunction of (ii) and (iii),
not a conjunction of all three. -/
theorem c6_skip_heuristic_characterization (tag1 tag2 : String) :
    shouldSkipPair tag1 tag2 = true ↔
      (¬(jsIncludes tag1 tag2 = true ∨ jsIncludes tag2 tag1 = true) ∧
        ((2 * ((tag1.length : ℤ) - (tag2.length : ℤ)).natAbs >
            max tag1.length tag2.length) ∨
          ¬((tag1.toList.take 3).any (fun c => (tag2.toList.take 3).contains c) = true))) := by
  simp only [shouldSkipPair, Bool.or_eq_true]
  split_ifs with h1 h2 h3 <;> simp_all

/-! ## Math primitives (`src/utils/math.js`) -/

/-- One row of the Levenshtein DP matrix: given the previous row (as `diag`,
the entry above-left, and the remaining entries starting with the entry
above) and `left`, the entry just computed in the current row, produce the
rest of the current row.  `cost` is `0`/`1` on character equality, and each
entry is `min(up + 1, left + 1, diag + cost)` as in the matrix loop of
`MathUtils.levenshteinDistance`. -/
def levGoRow (c : Char) : Nat → Nat → List Char → List Nat → List Nat
  | diag, left, c2 :: cs, up :: rest =>
    let cost := if c = c2 then 0 else 1
    let v := min (up + 1) (min (left + 1) (diag + cost))
    v :: levGoRow c up v cs rest
  | _, _, _, _ => []

/-- Embedding of `MathUtils.levenshteinDistance` (classic DP matrix,
`src/utils/math.js`), computed row by row: row `0` is `0..len2`, row `i`
starts with `i`, and the answer is the last entry of the final row. -/
def levenshteinDistance (str1 str2 : String) : Nat :=
  let s2 := str2.toList
  let row0 := List.range (s2.length + 1)
  let final := (str1.toList.foldl
    (fun (st : List Nat × Nat) c =>
      let prev := st.1
      let i := st.2
      (i :: levGoRow c (prev.headD 0) i s2 prev.tail, i + 1))
    (row0, 1)).1
  final.getLastD 0

/-! ## Similarity engine — mechanical similarity and pairwise proposals
(`src/core/similarity.js`)

Scores are embedded as `ℚ`.  All constants involved (`0.25`, `0.5`, `0.30`,
thresholds such as `0.8`) are embedded exactly; the JS floating-point
computation can deviate from `ℚ` only by tiny rounding, which cannot affect
any of the concrete comparisons proved below because the capped score `1.0`
and the threshold comparisons are exact in both arithmetics there. -/

/-- A merge proposal `{canonical, alias, confidence, method}` (§3 entity 5). -/
structure MergeProposal where
  canonical : String
  -- `alias` is a reserved word in Lean; this field embeds the JS `alias` field
  aliasName : String
  confidence : ℚ
  method : String
deriving Repr, DecidableEq

/-- All unordered pairs `(l[i], l[j])` with `i < j`, in the nested-loop order
of the `for i / for j = i+1` loops of the source. -/
def allPairs {α : Type} : List α → List (α × α)
  | [] => []
  | x :: xs => xs.map (fun y => (x, y)) ++ allPairs xs

/-- Insert `x` into an already-sorted list, after every `y` for which
`keepBefore y x` (so the sort below is stable, as V8's `Array.sort`). -/
def insertSorted {α : Type} (keepBefore : α → α → Bool) (x : α) : List α → List α
  | [] => [x]
  | y :: ys => if keepBefore y x then y :: insertSorted keepBefore x ys else x :: y :: ys

/-- Stable sort (insertion sort) modelling JS `Array.prototype.sort` with a
comparator: `keepBefore y x` means `y` may stay before `x`. -/
def jsSortStableBy {α : Type} (keepBefore : α → α → Bool) (l : List α) : List α :=
  l.foldl (fun acc x => insertSorted keepBefore x acc) []

/-- Lexicographic comparison of character lists: JS's default
`Array.prototype.sort()` comparator on strings (UTF-16 lexicographic, which
agrees with code-point lexicographic on the tags in play). -/
def lexLe : List Char → List Char → Bool
  | [], _ => true
  | _ :: _, [] => false
  | x :: xs, y :: ys => if x = y then lexLe xs ys else decide (x < y)

/-- JS default string comparison for `Array.prototype.sort()`. -/
def jsStringLe (a b : String) : Bool :=
  lexLe a.toList b.toList

/-- Length of the common prefix of two character lists (the `while` loop
computing `cpl` in `computeMechanicalSimilarity`). -/
def commonPrefixLen : List Char → List Char → Nat
  | a :: as, b :: bs => if a = b then commonPrefixLen as bs + 1 else 0
  | _, _ => 0

/-- Embedding of `Similarity.computeMechanicalSimilarity`
(`src/core/similarity.js`): for each pair of distinct tags (in sorted order),
skip via `shouldSkipPair`, otherwise score
`1 − levenshtein/maxLen` plus a `0.25` substring bonus, a further `0.5`
abbreviation bonus (shorter of length ≤ 3 prefixing the longer), and a `0.30`
common-prefix (≥ 3) bonus, capped at `1`; propose when `score ≥ threshold`,
with the higher-count tag as canonical.  `counts` models
`discoveredTopics[tag]?.count || 0`. -/
def computeMechanicalSimilarity (threshold : ℚ) (tags : List String)
    (counts : String → Nat) : List MergeProposal :=
  let sortedTags := jsSortStableBy jsStringLe tags
  (allPairs sortedTags).foldl
    (fun acc p =>
      let tag1 := p.1
      let tag2 := p.2
      if shouldSkipPair tag1 tag2 then acc
      else
        let distance := levenshteinDistance tag1 tag2
        let maxLen := max tag1.length tag2.length
        let score0 : ℚ := 1 - (distance : ℚ) / (maxLen : ℚ)
        -- Bonus 1: substring / abbreviation (e.g. "py" vs "python")
        let score1 :=
          if jsIncludes tag1 tag2 || jsIncludes tag2 tag1 then
            let shorter := if tag1.length ≤ tag2.length then tag1 else tag2
            let longer := if tag1.length ≤ tag2.length then tag2 else tag1
            let withSub := score0 + 0.25
            if shorter.length ≤ 3 && shorter.toList.isPrefixOf longer.toList then
              withSub + 0.5
            else withSub
          else score0
        -- Bonus 2: common-prefix of length ≥ 3
        let cpl := commonPrefixLen tag1.toList tag2.toList
        let score2 := if cpl ≥ 3 then score1 + 0.30 else score1
        let score := min score2 1
        if score ≥ threshold then
          let count1 := counts tag1
          let count2 := counts tag2
          let canonical := if count1 ≥ count2 then tag1 else tag2
          let aliasTag := if count1 ≥ count2 then tag2 else tag1
          acc ++ [{ canonical := canonical, aliasName := aliasTag,
                    confidence := score, method := "levenshtein" }]
        else acc)
    []

/-- Embedding of `Similarity.applySynonymRules`: each rule is
`[preferred, alt…]`; if the preferred tag is present, alias every present
alt to it; otherwise promote the first present alt. -/
def applySynonymRules (synonyms : List (List String)) (tags : List String) :
    List MergeProposal :=
  synonyms.foldl
    (fun acc group =>
      if group.length < 2 then acc
      else
        match group with
        | [] => acc
        | canonical :: aliases =>
          let foundAliases := aliases.filter (fun a => tags.contains a)
          if tags.contains canonical && !foundAliases.isEmpty then
            acc ++ foundAliases.map (fun a =>
              { canonical := canonical, aliasName := a, confidence := 1,
                method := "synonym_rule" })
          else
            match foundAliases with
            | [] => acc
            | newCanonical :: rest =>
              acc ++ rest.map (fun a =>
                { canonical := newCanonical, aliasName := a, confidence := 1,
                  method := "synonym_rule" }))
    []

/-- Embedding of `Similarity.deduplicateProposals`: keep the first proposal
for each `(alias, canonical)` key. -/
def deduplicateProposals (proposals : List MergeProposal) : List MergeProposal :=
  (proposals.foldl
    (fun (st : List String × List MergeProposal) proposal =>
      let key := proposal.aliasName ++ "→" ++ proposal.canonical
      if st.1.contains key then st
      else (st.1 ++ [key], st.2 ++ [proposal]))
    ([], [])).2

/-- Embedding of `Similarity.computePairwiseSimilarity` on the mechanical
(`levenshtein`) method path: synonym proposals, then mechanical proposals,
deduplicated by `(alias, canonical)` and sorted by confidence descending. -/
def computePairwiseSimilarityMechanical (synonyms : List (List String))
    (threshold : ℚ) (tags : List String) (counts : String → Nat) :
    List MergeProposal :=
  let proposals := applySynonymRules synonyms tags
    ++ computeMechanicalSimilarity threshold tags counts
  jsSortStableBy (fun a b => decide (b.confidence ≤ a.confidence))
    (deduplicateProposals proposals)

/-- The discovered-topic counts of the C9 scenario: `py ↦ 5`, `python ↦ 10`. -/
def pyCounts : String → Nat :=
  fun t => if t = "py" then 5 else if t = "python" then 10 else 0

/-- C9: with threshold `0.8` and the mechanical (levenshtein) method, on tags
`{py ↦ 5, python ↦ 10}` the similarity engine returns exactly one merge
proposal: canonical `python`, alias `py`, method `levenshtein`, and
confidence `≥ 0.8` (the base score `1 − 4/6` plus the `0.25` substring bonus
and the `0.5` abbreviation bonus exceeds `1` and is capped there). -/
theorem c9_py_python_abbreviation_merge :
    ∃ p : MergeProposal,
      computePairwiseSimilarityMechanical [] (8/10) ["py", "python"] pyCounts = [p] ∧
      p.canonical = "python" ∧ p.aliasName = "py" ∧ p.method = "levenshtein" ∧
      p.confidence ≥ 8/10 := by
  refine ⟨{ canonical := "python", aliasName := "py", confidence := 1,
            method := "levenshtein" }, ?_, rfl, rfl, rfl, by norm_num⟩
  have hsorted : jsSortStableBy jsStringLe ["py", "python"] = ["py", "python"] := rfl
  have hskip : shouldSkipPair "py" "python" = false := rfl
  have hlev : levenshteinDistance "py" "python" = 4 := rfl
  have hcpl : commonPrefixLen "py".toList "python".toList = 2 := rfl
  have hinc : (jsIncludes "py" "python" || jsIncludes "python" "py") = true := rfl
  have hl1 : "py".length = 2 := rfl
  have hl2 : "python".length = 6 := rfl
  have hc1 : pyCounts "py" = 5 := rfl
  have hc2 : pyCounts "python" = 10 := rfl
  unfold computePairwiseSimilarityMechanical computeMechanicalSimilarity applySynonymRules
  simp only [hsorted, allPairs, List.map, List.foldl, List.nil_append, List.append_nil, hskip,
    hlev, hcpl, hinc, hl1, hl2, Bool.false_eq_true, if_false]
  norm_num [deduplicateProposals, jsSortStableBy, insertSorted, min_def, hl1, hl2, hc1, hc2,
    List.isPrefixOf, List.foldl]

/-! ## Phase 3 — topic-name sanitization and safe topic paths
(`src/phases/phase3-organize.js`)

Paths are modelled as lists of components.  `topicsDir` is the topics
directory as an absolute path's components; `path.resolve(path.join(dir,
name))` becomes appending `name`'s separator-split components and
normalizing (dropping `""`/`"."`, popping on `".."` — POSIX `path`
semantics, where `'\\'` is an ordinary character).  The source check
`resolvedPath.startsWith(resolvedTopicsDir + path.sep)` is the statement
that the resolved topics directory is a strict component-prefix of the
resolved path. -/

/-- JS `topic.replace(/\.\./g, '')`: remove non-overlapping `".."` pairs,
scanning left to right. -/
def jsRemoveDotDot : List Char → List Char
  | '.' :: '.' :: rest => jsRemoveDotDot rest
  | c :: rest => c :: jsRemoveDotDot rest
  | [] => []

/-- The class `[<>:"|?*\x00-\x1f]` of filename-invalid characters removed by
`sanitizeTopicName`. -/
def invalidFilenameChar (c : Char) : Bool :=
  c = '<' || c = '>' || c = ':' || c = '"' || c = '|' || c = '?' || c = '*' ||
    c.toNat ≤ 0x1f

/-- Embedding of `Phase3Organize.sanitizeTopicName`: strip `".."` pairs, then
slashes, then filename-invalid characters; default to `"unnamed"` when empty;
truncate to 100 characters. -/
def sanitizeTopicName (topic : String) : String :=
  let s1 := jsRemoveDotDot topic.toList
  let s2 := s1.filter (fun c => !(c = '/' || c = '\\'))
  let s3 := s2.filter (fun c => !invalidFilenameChar c)
  let s4 := if s3.length = 0 then "unnamed".toList else s3
  let s5 := if s4.length > 100 then s4.take 100 else s4
  String.mk s5

/-- Embedding of `Phase3Organize.capitalizeFirst`. -/
def capitalizeFirst (s : String) : String :=
  match s.toList with
  | [] => "Unnamed"
  | c :: rest => String.mk (c.toUpper :: rest)

/-- Normalize a component list the way `path.resolve` does on an absolute
path: drop empty and `"."` components, pop one component on `".."`. -/
def normalizeComponents (cs : List String) : List String :=
  cs.foldl
    (fun acc comp =>
      if comp = "" || comp = "." then acc
      else if comp = ".." then acc.dropLast
      else acc ++ [comp])
    []

/-- `path.resolve(path.join(dir, name))` for an absolute `dir` given as
components: split `name` at separators, append, normalize. -/
def resolveJoin (dir : List String) (name : String) : List String :=
  normalizeComponents (dir ++ (splitOnChar '/' name.toList).map (fun cs => String.mk cs))

/-- Embedding of `Phase3Organize.getSafeTopicPath`: sanitize and capitalize
the topic name, append `.md`, join under the topics directory, resolve, and
fail with a `Security violation` error unless the result stays strictly
inside the resolved topics directory. -/
def getSafeTopicPath (topicsDir : List String) (topicName : String) :
    Except String (List String) :=
  let sanitized := sanitizeTopicName topicName
  let capitalized := capitalizeFirst sanitized
  let filename := capitalized ++ ".md"
  let resolvedPath := resolveJoin topicsDir filename
  let resolvedTopicsDir := normalizeComponents topicsDir
  -- `resolvedPath.startsWith(resolvedTopicsDir + path.sep)`
  if resolvedTopicsDir.isPrefixOf resolvedPath
      && decide (resolvedTopicsDir.length < resolvedPath.length) then
    Except.ok resolvedPath
  else
    Except.error ("Security violation: Topic path outside directory: " ++ topicName)

/-- `Char.toUpper` cannot produce a character outside the upper-case latin
range `65..90` unless it returns its argument unchanged. -/
theorem char_toUpper_ne (c d : Char) (h : c ≠ d)
    (hd : d.toNat < 65 ∨ 90 < d.toNat) : c.toUpper ≠ d := by
  unfold Char.toUpper
  by_cases hr : c.toNat ≥ 97 ∧ c.toNat ≤ 122
  · simp only [if_pos hr]
    intro heq
    have h2 := congrArg Char.toNat heq
    have hv : (c.toNat - 32).isValidChar := Or.inl (by omega)
    have h3 : (Char.ofNat (c.toNat - 32)).toNat = c.toNat - 32 := by
      unfold Char.ofNat
      rw [dif_pos hv]
      simp [Char.ofNatAux, Char.toNat, UInt32.toNat, BitVec.toNat_ofNatLt]
    rw [h3] at h2
    omega
  · simp only [if_neg hr]
    exact h

theorem toList_mk (cs : List Char) : (String.mk cs).toList = cs := rfl

theorem toList_append (a b : String) : (a ++ b).toList = a.toList ++ b.toList := by
  cases a
  cases b
  rfl

/-- No character of a sanitized topic name is a separator. -/
theorem sanitizeTopicName_no_slash (topic : String) :
    ∀ c ∈ (sanitizeTopicName topic).toList, c ≠ '/' := by
  intro c hc
  unfold sanitizeTopicName at hc
  rw [toList_mk] at hc
  have hun : ∀ x ∈ "unnamed".toList, x ≠ '/' := by decide
  split at hc
  · -- the `"unnamed"` default, possibly truncated
    split at hc
    · exact hun c (List.take_subset 100 _ hc)
    · exact hun c hc
  · have hfil : ∀ x ∈ (List.filter (fun c => !invalidFilenameChar c)
        (List.filter (fun c => !(c = '/' || c = '\\'))
          (jsRemoveDotDot topic.toList))), x ≠ '/' := by
      intro x hx
      have hx2 := List.mem_of_mem_filter hx
      have hx3 := (List.mem_filter.mp hx2).2
      simp only [Bool.not_eq_true', Bool.or_eq_false_iff, decide_eq_false_iff_not] at hx3
      exact hx3.1
    split at hc
    · exact hfil c (List.take_subset 100 _ hc)
    · exact hfil c hc

/-- No character of a capitalized sanitized topic name is a separator. -/
theorem capitalized_sanitized_no_slash (topic : String) :
    ∀ c ∈ (capitalizeFirst (sanitizeTopicName topic)).toList, c ≠ '/' := by
  intro c hc
  unfold capitalizeFirst at hc
  rcases hlist : (sanitizeTopicName topic).toList with _ | ⟨c0, rest⟩
  · rw [hlist] at hc
    have hun : ∀ x ∈ "Unnamed".toList, x ≠ '/' := by decide
    exact hun c hc
  · rw [hlist, toList_mk] at hc
    rcases List.mem_cons.mp hc with h0 | hrest
    · subst h0
      exact char_toUpper_ne c0 '/'
        (sanitizeTopicName_no_slash topic c0 (by rw [hlist]; exact List.mem_cons_self _ _))
        (by left; decide)
    · exact sanitizeTopicName_no_slash topic c (by rw [hlist]; exact List.mem_cons_of_mem _ hrest)

/-- The capitalized sanitized name is never empty. -/
theorem capitalized_sanitized_ne_nil (topic : String) :
    (capitalizeFirst (sanitizeTopicName topic)).toList ≠ [] := by
  unfold capitalizeFirst
  rcases hlist : (sanitizeTopicName topic).toList with _ | ⟨c0, rest⟩ <;> simp [hlist, toList_mk]

/-- Appending a component that is neither empty nor a dot component commutes
with normalization. -/
theorem normalizeComponents_append_file (dir : List String) (f : String)
    (hne : f ≠ "") (hd1 : f ≠ ".") (hd2 : f ≠ "..") :
    normalizeComponents (dir ++ [f]) = normalizeComponents dir ++ [f] := by
  unfold normalizeComponents
  rw [List.foldl_append]
  simp [hne, hd1, hd2]

/-- C1 (safe path law): for every topic name `T`, `getSafeTopicPath` either
returns a path that is a strict descendant of the resolved topics directory,
or fails with an error mentioning `Security violation`; it never returns a
path outside the topics directory.  (In fact sanitization always removes
separators and `".."` components, so the first branch always applies.) -/
theorem c1_safe_topic_path (topicsDir : List String) (T : String) :
    (∃ p, getSafeTopicPath topicsDir T = Except.ok p ∧
        normalizeComponents topicsDir <+: p ∧ p ≠ normalizeComponents topicsDir) ∨
    (∃ msg, getSafeTopicPath topicsDir T = Except.error msg ∧
        "Security violation".isPrefixOf msg = true) := by
  left
  have hmd : ∀ x ∈ ".md".toList, x ≠ '/' := by decide
  have hfchars : ∀ c ∈ (capitalizeFirst (sanitizeTopicName T) ++ ".md").toList, c ≠ '/' := by
    intro c hc
    rw [toList_append] at hc
    rcases List.mem_append.mp hc with h1 | h2
    · exact capitalized_sanitized_no_slash T c h1
    · exact hmd c h2
  set filename := capitalizeFirst (sanitizeTopicName T) ++ ".md" with hfn
  have hsplit : splitOnChar '/' filename.toList = [filename.toList] :=
    splitOnChar_of_not_mem '/' filename.toList hfchars
  have hmk : String.mk filename.toList = filename := rfl
  have hlen : 4 ≤ filename.toList.length := by
    rw [hfn, toList_append, List.length_append]
    have := capitalized_sanitized_ne_nil T
    have h1 : 1 ≤ (capitalizeFirst (sanitizeTopicName T)).toList.length := by
      rcases h : (capitalizeFirst (sanitizeTopicName T)).toList with _ | _
      · exact absurd h this
      · simp
    have h2 : ".md".toList.length = 3 := rfl
    omega
  have hne : filename ≠ "" := by
    intro h
    have h2 := congrArg (fun s => s.toList.length) h
    simp only at h2
    have h3 : ("" : String).toList.length = 0 := rfl
    omega
  have hd1 : filename ≠ "." := by
    intro h
    have h2 := congrArg (fun s => s.toList.length) h
    simp only at h2
    have h3 : ("." : String).toList.length = 1 := rfl
    omega
  have hd2 : filename ≠ ".." := by
    intro h
    have h2 := congrArg (fun s => s.toList.length) h
    simp only at h2
    have h3 : (".." : String).toList.length = 2 := rfl
    omega
  have hres : resolveJoin topicsDir filename = normalizeComponents topicsDir ++ [filename] := by
    unfold resolveJoin
    rw [hsplit]
    simp only [List.map_cons, List.map_nil, hmk]
    exact normalizeComponents_append_file topicsDir filename hne hd1 hd2
  refine ⟨normalizeComponents topicsDir ++ [filename], ?_, List.prefix_append _ _, by simp⟩
  unfold getSafeTopicPath
  dsimp only
  rw [← hfn, hres]
  have hpre : (normalizeComponents topicsDir).isPrefixOf
      (normalizeComponents topicsDir ++ [filename]) = true := by
    rw [List.isPrefixOf_iff_prefix]
    exact List.prefix_append _ _
  simp [hpre]

/-! ## Transaction log and Phase 5 rollback
(`src/utils/transaction.js`, `Phase5Validate.rollback` in
`src/phases/phase5-validate.js`)

A transaction-log entry is modelled with the fields rollback inspects;
`Option String` fields model JSON fields that may be absent, and JS
truthiness (`!txn.hash`) is absence or the empty string.  The filesystem and
the backup store are explicit maps; `backup.restore` throwing (missing
backup file) is the per-entry failure that the source catches and logs. -/

/-- A transaction-log entry (the fields `Phase5Validate.rollback` reads). -/
structure TxnEntry where
  action : String
  target : Option String
  hash : Option String
  status : String
deriving DecidableEq, Repr

/-- JS truthiness of a possibly-absent string field. -/
def jsTruthy : Option String → Bool
  | none => false
  | some s => !s.isEmpty

/-- `Transaction.getReverse` (`src/utils/transaction.js`): all entries, in
reverse of append (chronological) order. -/
def getReverse (log : List TxnEntry) : List TxnEntry :=
  log.reverse

/-- What the rollback loop did for one processed entry. -/
inductive RollbackEvent where
  | restored (hash target : String)
  | restoreFailed (hash target : String)
  | skippedWithWarning
  | ignored
deriving DecidableEq, Repr

/-- One iteration of the rollback loop of `Phase5Validate.rollback`: only
`replace_stubs` entries are handled; entries with a missing/empty `hash` or
`target` are skipped with a warning; otherwise the target is restored from
the backup named by the hash, and a failure (missing backup) is caught,
logged and does not abort the loop. -/
def rollbackStep (bk : String → Option String)
    (st : (String → Option String) × List RollbackEvent) (txn : TxnEntry) :
    (String → Option String) × List RollbackEvent :=
  if txn.action = "replace_stubs" then
    if !(jsTruthy txn.hash) || !(jsTruthy txn.target) then
      (st.1, st.2 ++ [RollbackEvent.skippedWithWarning])
    else
      match txn.hash, txn.target with
      | some h, some t =>
        (match bk h with
        | some content =>
          (fun p => if p = t then some content else st.1 p,
            st.2 ++ [RollbackEvent.restored h t])
        | none => (st.1, st.2 ++ [RollbackEvent.restoreFailed h t]))
      | _, _ => (st.1, st.2 ++ [RollbackEvent.skippedWithWarning])
  else (st.1, st.2 ++ [RollbackEvent.ignored])

/-- Embedding of `Phase5Validate.rollback`: iterate `transaction.getReverse()`
over the whole log, threading the filesystem and recording one event per
entry. -/
def rollback (bk : String → Option String) (log : List TxnEntry)
    (fs0 : String → Option String) :
    (String → Option String) × List RollbackEvent :=
  (getReverse log).foldl (rollbackStep bk) (fs0, [])

/-- The event that the rollback loop produces for a single entry. -/
def classifyRollback (bk : String → Option String) (txn : TxnEntry) : RollbackEvent :=
  if txn.action = "replace_stubs" then
    if !(jsTruthy txn.hash) || !(jsTruthy txn.target) then
      RollbackEvent.skippedWithWarning
    else
      match txn.hash, txn.target with
      | some h, some t =>
        (match bk h with
        | some _ => RollbackEvent.restored h t
        | none => RollbackEvent.restoreFailed h t)
      | _, _ => RollbackEvent.skippedWithWarning
  else RollbackEvent.ignored

theorem jsTruthy_iff (o : Option String) :
    jsTruthy o = true ↔ ∃ s, o = some s ∧ s.isEmpty = false := by
  cases o <;> simp [jsTruthy]

theorem rollbackStep_eq (bk : String → Option String)
    (st : (String → Option String) × List RollbackEvent) (txn : TxnEntry) :
    rollbackStep bk st txn =
      ((rollbackStep bk (st.1, []) txn).1, st.2 ++ [classifyRollback bk txn]) := by
  unfold rollbackStep classifyRollback
  by_cases ha : txn.action = "replace_stubs"
  · simp only [if_pos ha]
    by_cases htr : (!(jsTruthy txn.hash) || !(jsTruthy txn.target)) = true
    · simp [htr]
    · simp only [Bool.not_eq_true] at htr
      simp only [htr, if_false]
      rcases txn.hash with _ | h <;> rcases txn.target with _ | t <;> simp
      rcases bk h with _ | content <;> simp
  · simp [ha]

theorem rollback_foldl_events (bk : String → Option String) (l : List TxnEntry) :
    ∀ fs acc, (l.foldl (rollbackStep bk) (fs, acc)).2 = acc ++ l.map (classifyRollback bk) := by
  induction l with
  | nil => intro fs acc; simp
  | cons txn rest ih =>
    intro fs acc
    simp only [List.foldl_cons, List.map_cons]
    rw [rollbackStep_eq]
    rw [ih]
    simp

/-- C2: rollback processes the transaction log in reverse chronological
order, producing exactly one event per entry (so neither a skipped entry nor
a failed restore stops the remaining entries); an entry leads to a restore
attempt (successful or failed) iff its action is `replace_stubs` and both
`hash` and `target` are present, and an entry with action `replace_stubs`
missing either field is skipped with a warning. -/
theorem c2_rollback_reverse_and_conditions (bk : String → Option String)
    (log : List TxnEntry) (fs0 : String → Option String) :
    (rollback bk log fs0).2 = (getReverse log).map (classifyRollback bk) ∧
    (∀ txn : TxnEntry,
      ((∃ h t, classifyRollback bk txn = RollbackEvent.restored h t ∨
          classifyRollback bk txn = RollbackEvent.restoreFailed h t) ↔
        (txn.action = "replace_stubs" ∧ jsTruthy txn.hash = true ∧
          jsTruthy txn.target = true))) ∧
    (∀ txn : TxnEntry,
      (classifyRollback bk txn = RollbackEvent.skippedWithWarning ↔
        (txn.action = "replace_stubs" ∧
          ¬(jsTruthy txn.hash = true ∧ jsTruthy txn.target = true)))) := by
  refine ⟨rollback_foldl_events bk (getReverse log) fs0 [], ?_, ?_⟩
  · intro txn
    unfold classifyRollback
    by_cases ha : txn.action = "replace_stubs"
    · simp only [if_pos ha]
      by_cases htr : (!(jsTruthy txn.hash) || !(jsTruthy txn.target)) = true
      · simp only [if_pos htr]
        simp only [Bool.or_eq_true, Bool.not_eq_true'] at htr
        constructor
        · rintro ⟨h, t, hc | hc⟩ <;> simp at hc
        · rintro ⟨-, hh, ht⟩
          rcases htr with h' | h' <;> simp_all
      · simp only [if_neg htr]
        simp only [Bool.or_eq_true, Bool.not_eq_true'] at htr
        push_neg at htr
        obtain ⟨hh, ht⟩ := htr
        have hh0 : jsTruthy txn.hash = true := by simp [hh]
        have ht0 : jsTruthy txn.target = true := by simp [ht]
        obtain ⟨h, hheq, -⟩ := (jsTruthy_iff txn.hash).mp hh0
        obtain ⟨t, hteq, -⟩ := (jsTruthy_iff txn.target).mp ht0
        rw [hheq] at hh0
        rw [hteq] at ht0
        rw [hheq, hteq]
        constructor
        · rintro -
          exact ⟨ha, hh0, ht0⟩
        · rintro -
          rcases hbk : bk h with _ | content
          · exact ⟨h, t, Or.inr (by simp [hbk])⟩
          · exact ⟨h, t, Or.inl (by simp [hbk])⟩
    · simp only [if_neg ha]
      constructor
      · rintro ⟨h, t, hc | hc⟩ <;> simp at hc
      · rintro ⟨h', -⟩; exact absurd h' ha
  · intro txn
    unfold classifyRollback
    by_cases ha : txn.action = "replace_stubs"
    · simp only [if_pos ha]
      by_cases htr : (!(jsTruthy txn.hash) || !(jsTruthy txn.target)) = true
      · simp only [if_pos htr]
        simp only [Bool.or_eq_true, Bool.not_eq_true'] at htr
        constructor
        · rintro -
          refine ⟨ha, ?_⟩
          rintro ⟨hh, ht⟩
          rcases htr with h' | h' <;> simp_all
        · rintro -
          trivial
      · simp only [if_neg htr]
        simp only [Bool.or_eq_true, Bool.not_eq_true'] at htr
        push_neg at htr
        obtain ⟨hh, ht⟩ := htr
        have hh0 : jsTruthy txn.hash = true := by simp [hh]
        have ht0 : jsTruthy txn.target = true := by simp [ht]
        obtain ⟨h, hheq, -⟩ := (jsTruthy_iff txn.hash).mp hh0
        obtain ⟨t, hteq, -⟩ := (jsTruthy_iff txn.target).mp ht0
        rw [hheq] at hh0
        rw [hteq] at ht0
        rw [hheq, hteq]
        constructor
        · intro hc
          rcases hbk : bk h with _ | content <;> simp [hbk] at hc
        · rintro ⟨-, hcontra⟩
          exact absurd ⟨hh0, ht0⟩ hcontra
    · simp [ha]

/-! ## Orchestrator — state merging and per-phase checkpoint saves
(`MemoryPolisher.executePhases` / `safeMerge` in `src/index.js`)

The dynamic run state is modelled as an insertion-ordered association list
from keys to values; values are strings, arrays of strings, or opaque.  A
saved checkpoint is the spread of the merged state plus the `current_phase`
and `completed_steps` overrides.  Each phase is `(id, result-object)`. -/

/-- A dynamic JS value as far as the orchestrator's checkpoints care. -/
inductive JValue where
  | str (s : String)
  | list (l : List String)
  | other
deriving DecidableEq, Repr

/-- A JS object: insertion-ordered association list. -/
abbrev JState := List (String × JValue)

/-- Property read `st[k]`. -/
def jlookup : JState → String → Option JValue
  | [], _ => none
  | (k', v') :: rest, k => if k' = k then some v' else jlookup rest k

/-- Property write `st[k] = v`: update in place, else append (JS insertion
order). -/
def jset : JState → String → JValue → JState
  | [], k, v => [(k, v)]
  | (k', v') :: rest, k, v =>
    if k' = k then (k, v) :: rest else (k', v') :: jset rest k v

/-- Embedding of `MemoryPolisher.safeMerge`: copy `source`'s keys over
`target`, rejecting the prototype-manipulation keys. -/
def safeMerge (target source : JState) : JState :=
  source.foldl
    (fun acc kv =>
      if kv.1 = "__proto__" ∨ kv.1 = "constructor" ∨ kv.1 = "prototype" then acc
      else jset acc kv.1 kv.2)
    target

/-- `this.state.completed_steps || []` (a non-array value stored under the
key never occurs in a run: no phase result produces it). -/
def completedStepsOf (st : JState) : List String :=
  match jlookup st "completed_steps" with
  | some (JValue.list l) => l
  | _ => []

/-- The object passed to `checkpoint.save` at a phase boundary. -/
structure SavedCheckpoint where
  base : JState
  current_phase : String
  completed_steps : List String
deriving DecidableEq, Repr

/-- Embedding of `MemoryPolisher.executePhases` (no `only_phases` filter, as
on a normal run): for each phase `(id, result)` in order, merge the result
into the state via `safeMerge`, then save a checkpoint whose
`current_phase` is `id` and whose `completed_steps` appends `id` to
`this.state.completed_steps || []` — note the saved object is *not* written
back into `this.state`. -/
def executePhases (phases : List (String × JState)) (st0 : JState) :
    JState × List SavedCheckpoint :=
  phases.foldl
    (fun acc ph =>
      let st' := safeMerge acc.1 ph.2
      let saved : SavedCheckpoint :=
        { base := st', current_phase := ph.1,
          completed_steps := completedStepsOf st' ++ [ph.1] }
      (st', acc.2 ++ [saved]))
    (st0, [])

theorem jlookup_jset_ne (st : JState) (k k' : String) (v : JValue) (h : k' ≠ k) :
    jlookup (jset st k v) k' = jlookup st k' := by
  induction st with
  | nil => simp [jset, jlookup, Ne.symm h]
  | cons kv rest ih =>
    rcases kv with ⟨k0, v0⟩
    by_cases hk : k0 = k
    · subst hk
      simp only [jset, if_pos rfl, jlookup]
      rw [if_neg (Ne.symm h), if_neg (Ne.symm h)]
    · simp only [jset, if_neg hk, jlookup]
      by_cases hk' : k0 = k'
      · simp [hk']
      · simp [hk', ih]

theorem safeMerge_lookup_none (src : List (String × JValue)) :
    ∀ st : JState, ∀ key : String, jlookup st key = none →
      (∀ kv ∈ src, kv.1 ≠ key) → jlookup (safeMerge st src) key = none := by
  induction src with
  | nil => intro st key h1 _; exact h1
  | cons kv rest ih =>
    intro st key h1 h2
    unfold safeMerge
    simp only [List.foldl_cons]
    by_cases hd : kv.1 = "__proto__" ∨ kv.1 = "constructor" ∨ kv.1 = "prototype"
    · rw [if_pos hd]
      exact ih st key h1 (fun x hx => h2 x (List.mem_cons_of_mem _ hx))
    · rw [if_neg hd]
      have hne : key ≠ kv.1 := Ne.symm (h2 kv (List.mem_cons_self _ _))
      exact ih _ key (by rw [jlookup_jset_ne st kv.1 key kv.2 hne]; exact h1)
        (fun x hx => h2 x (List.mem_cons_of_mem _ hx))

/-- Counterexample to claim C3: on a fresh run with two phases `"0"`, `"1"`
(empty results), the checkpoint saved after phase `"1"` has
`completed_steps = ["1"]`, not the prefix `["0", "1"]` the claim requires:
the `completed_steps` appended into the saved object is never written back
into `this.state`. -/
theorem c3_checkpoint_counterexample :
    (executePhases [("0", []), ("1", [])] []).2.map
        (fun c => (c.current_phase, c.completed_steps)) =
      [("0", ["0"]), ("1", ["1"])] ∧
    (["1"] : List String) ≠ ["0", "1"] := by
  constructor
  · rfl
  · decide

/-- C3, amended: on a fresh run (no `completed_steps` in the initial state)
in which no phase result carries a `completed_steps` key, the checkpoint
saved after each phase has `current_phase` equal to that phase's id but
`completed_steps` equal to the *singleton* `[id]` — the full prefix
`['0'..'5']` appears only in the final completed-state save in
`MemoryPolisher.run`. -/
theorem c3_fresh_run_checkpoints (phases : List (String × JState)) (st0 : JState)
    (hst : jlookup st0 "completed_steps" = none)
    (hres : ∀ ph ∈ phases, ∀ kv ∈ ph.2, kv.1 ≠ "completed_steps") :
    (executePhases phases st0).2.map (fun c => (c.current_phase, c.completed_steps)) =
      phases.map (fun ph => (ph.1, [ph.1])) := by
  suffices h : ∀ acc : List SavedCheckpoint,
      (phases.foldl
        (fun acc ph =>
          let st' := safeMerge acc.1 ph.2
          let saved : SavedCheckpoint :=
            { base := st', current_phase := ph.1,
              completed_steps := completedStepsOf st' ++ [ph.1] }
          (st', acc.2 ++ [saved]))
        (st0, acc)).2.map (fun c => (c.current_phase, c.completed_steps)) =
      acc.map (fun c => (c.current_phase, c.completed_steps)) ++
        phases.map (fun ph => (ph.1, [ph.1])) by
    have := h []
    simpa [executePhases] using this
  induction phases generalizing st0 with
  | nil => intro acc; simp
  | cons ph rest ih =>
    intro acc
    simp only [List.foldl_cons, List.map_cons]
    have hmerge : jlookup (safeMerge st0 ph.2) "completed_steps" = none :=
      safeMerge_lookup_none ph.2 st0 "completed_steps" hst
        (hres ph (List.mem_cons_self _ _))
    have hsteps : completedStepsOf (safeMerge st0 ph.2) = [] := by
      unfold completedStepsOf
      rw [hmerge]
    rw [ih (safeMerge st0 ph.2) hmerge
      (fun p hp => hres p (List.mem_cons_of_mem _ hp))]
    simp [hsteps]

/-- Witness for `c3_fresh_run_checkpoints`: a fresh six-phase run with empty
phase results, checked concretely. -/
theorem c3_fresh_run_checkpoints_witness :
    jlookup ([] : JState) "completed_steps" = none ∧
    (executePhases [("0", []), ("1", []), ("2", []), ("3", []), ("4", []), ("5", [])]
        []).2.map (fun c => (c.current_phase, c.completed_steps)) =
      [("0", ["0"]), ("1", ["1"]), ("2", ["2"]), ("3", ["3"]), ("4", ["4"]), ("5", ["5"])] := by
  refine ⟨rfl, ?_⟩
  have h := c3_fresh_run_checkpoints
    [("0", []), ("1", []), ("2", []), ("3", []), ("4", []), ("5", [])] [] rfl
    (by intro ph hph kv hkv
        simp only [List.mem_cons, List.not_mem_nil, or_false] at hph
        rcases hph with h | h | h | h | h | h <;> subst h <;> simp at hkv)
  rw [h]
  rfl

/-! ## Scanner — hashtag regex (`src/core/scanner.js`)

The regex `/#([a-z0-9_-]+)\b/gi` is embedded as a character scan.  At a `#`,
the `+` greedily takes the maximal run of class characters
(`[A-Za-z0-9_-]`, the `i` flag folding case); the trailing `\b` then
backtracks: every class character except `'-'` is a word character and every
non-class character is a non-word character, so the match is the longest
prefix of the run that ends in a word character (the run with its trailing
dashes stripped), and the whole `#` position fails when the run is empty or
all dashes.  Matching then resumes after the matched tag (`lastIndex`); the
skipped trailing dashes cannot start a new match since a match begins with
`#`. -/

/-- The character class `[a-z0-9_-]` under the case-insensitive flag. -/
def isClassChar (c : Char) : Bool :=
  ('a' ≤ c && c ≤ 'z') || ('A' ≤ c && c ≤ 'Z') || ('0' ≤ c && c ≤ '9') || c = '_' || c = '-'

/-- A regex word character (`\w`), deciding the `\b` boundary. -/
def isWordChar (c : Char) : Bool :=
  ('a' ≤ c && c ≤ 'z') || ('A' ≤ c && c ≤ 'Z') || ('0' ≤ c && c ≤ '9') || c = '_'

/-- Longest prefix of a class-character run that ends in a word character:
the run with its trailing dashes removed. -/
def stripTrailingDashes (run : List Char) : List Char :=
  (run.reverse.dropWhile (fun c => c = '-')).reverse

/-- Worker for `findMatches`, structurally recursive on a fuel that bounds
the number of remaining characters (every step consumes at least one
character, so `cs.length` fuel always suffices and the fuel never runs
out). -/
def findMatchesGo (fuel : Nat) (pos : Nat) (cs : List Char) : List (Nat × List Char) :=
  match fuel with
  | 0 => []
  | fuel + 1 =>
    match cs with
    | [] => []
    | c :: rest =>
      if c = '#' then
        let run := rest.takeWhile isClassChar
        let rest2 := rest.drop run.length
        let tag := stripTrailingDashes run
        if tag.isEmpty then findMatchesGo fuel (pos + 1) rest
        else (pos, tag) :: findMatchesGo fuel (pos + 1 + tag.length) (run.drop tag.length ++ rest2)
      else findMatchesGo fuel (pos + 1) rest

/-- All matches of `/#([a-z0-9_-]+)\b/gi` in `cs`, as
`(match index, raw captured tag)` pairs; `pos` is the index of `cs`'s head
in the scanned string. -/
def findMatches (pos : Nat) (cs : List Char) : List (Nat × List Char) :=
  findMatchesGo cs.length pos cs

theorem stripTrailingDashes_length (run : List Char) :
    (stripTrailingDashes run).length ≤ run.length := by
  unfold stripTrailingDashes
  rw [List.length_reverse]
  calc (run.reverse.dropWhile (fun c => c = '-')).length
      ≤ run.reverse.length := (List.dropWhile_suffix _).sublist.length_le
    _ = run.length := List.length_reverse _

theorem findMatchesGo_congr : ∀ (f1 : Nat), ∀ (f2 pos : Nat), ∀ cs : List Char,
    cs.length ≤ f1 → cs.length ≤ f2 →
    findMatchesGo f1 pos cs = findMatchesGo f2 pos cs := by
  intro f1
  induction f1 with
  | zero =>
    intro f2 pos cs h1 h2
    have : cs = [] := List.length_eq_zero.mp (Nat.le_zero.mp h1)
    subst this
    cases f2 <;> rfl
  | succ f1 ih =>
    intro f2 pos cs h1 h2
    match cs with
    | [] => cases f2 <;> rfl
    | c :: rest =>
      match f2, h2 with
      | f2 + 1, h2 =>
        simp only [List.length_cons] at h1 h2
        show findMatchesGo (f1 + 1) pos (c :: rest) = findMatchesGo (f2 + 1) pos (c :: rest)
        simp only [findMatchesGo]
        by_cases hc : c = '#'
        · simp only [if_pos hc]
          have hrun : (rest.takeWhile isClassChar).length ≤ rest.length :=
            (List.takeWhile_prefix isClassChar).length_le
          have hcont : ((rest.takeWhile isClassChar).drop
              (stripTrailingDashes (rest.takeWhile isClassChar)).length ++
              rest.drop (rest.takeWhile isClassChar).length).length ≤ rest.length := by
            rw [List.length_append, List.length_drop, List.length_drop]
            omega
          split
          · exact ih f2 (pos + 1) rest (by omega) (by omega)
          · rw [ih f2 _ _ (by omega) (by omega)]
        · simp only [if_neg hc]
          exact ih f2 (pos + 1) rest (by omega) (by omega)

/-- The defining equation of `findMatches` at a `#`. -/
theorem findMatches_hash (pos : Nat) (rest : List Char) :
    findMatches pos ('#' :: rest) =
      (let run := rest.takeWhile isClassChar
       let rest2 := rest.drop run.length
       let tag := stripTrailingDashes run
       if tag.isEmpty then findMatches (pos + 1) rest
       else (pos, tag) :: findMatches (pos + 1 + tag.length) (run.drop tag.length ++ rest2)) := by
  show findMatchesGo (rest.length + 1) pos ('#' :: rest) = _
  simp only [findMatchesGo, if_pos rfl, if_true]
  have hrun : (rest.takeWhile isClassChar).length ≤ rest.length :=
    (List.takeWhile_prefix isClassChar).length_le
  by_cases htag : (stripTrailingDashes (rest.takeWhile isClassChar)).isEmpty = true
  · rw [if_pos htag, if_pos htag]
    rfl
  · rw [if_neg htag, if_neg htag]
    congr 1
    exact findMatchesGo_congr rest.length
      (((rest.takeWhile isClassChar).drop
          (stripTrailingDashes (rest.takeWhile isClassChar)).length ++
        rest.drop (rest.takeWhile isClassChar).length).length)
      (pos + 1 + (stripTrailingDashes (rest.takeWhile isClassChar)).length)
      ((rest.takeWhile isClassChar).drop
          (stripTrailingDashes (rest.takeWhile isClassChar)).length ++
        rest.drop (rest.takeWhile isClassChar).length)
      (by rw [List.length_append, List.length_drop, List.length_drop]; omega)
      (Nat.le_refl _)

/-- The defining equation of `findMatches` away from a `#`. -/
theorem findMatches_skip (pos : Nat) (c : Char) (rest : List Char) (hc : c ≠ '#') :
    findMatches pos (c :: rest) = findMatches (pos + 1) rest := by
  show findMatchesGo (rest.length + 1) pos (c :: rest) = findMatchesGo rest.length (pos + 1) rest
  simp only [findMatchesGo, if_neg hc]

theorem findMatches_nil (pos : Nat) : findMatches pos [] = [] := rfl

/-! ### Character facts for case folding -/

theorem char_le_iff (a b : Char) : a ≤ b ↔ a.toNat ≤ b.toNat := by
  rw [Char.le_def, UInt32.le_def, BitVec.le_def]
  exact Iff.rfl

theorem char_toNat_inj {a b : Char} (h : a.toNat = b.toNat) : a = b :=
  Char.ext (UInt32.toNat.inj h)

theorem char_ofNat_toNat (n : Nat) (h : n.isValidChar) : (Char.ofNat n).toNat = n := by
  unfold Char.ofNat
  rw [dif_pos h]
  simp [Char.ofNatAux, Char.toNat, UInt32.toNat, BitVec.toNat_ofNatLt]

theorem toLower_toNat (c : Char) :
    c.toLower.toNat = if 65 ≤ c.toNat ∧ c.toNat ≤ 90 then c.toNat + 32 else c.toNat := by
  unfold Char.toLower
  by_cases h : 65 ≤ c.toNat ∧ c.toNat ≤ 90
  · rw [if_pos h, if_pos ⟨h.1, h.2⟩]
    exact char_ofNat_toNat _ (Or.inl (by omega))
  · rw [if_neg h, if_neg (by exact fun hc => h ⟨hc.1, hc.2⟩)]

theorem toUpper_toNat (c : Char) :
    c.toUpper.toNat = if 97 ≤ c.toNat ∧ c.toNat ≤ 122 then c.toNat - 32 else c.toNat := by
  unfold Char.toUpper
  by_cases h : 97 ≤ c.toNat ∧ c.toNat ≤ 122
  · rw [if_pos h, if_pos ⟨h.1, h.2⟩]
    exact char_ofNat_toNat _ (Or.inl (by omega))
  · rw [if_neg h, if_neg (by exact fun hc => h ⟨hc.1, hc.2⟩)]

theorem toLower_idem (c : Char) : c.toLower.toLower = c.toLower := by
  apply char_toNat_inj
  rw [toLower_toNat, toLower_toNat c]
  by_cases h : 65 ≤ c.toNat ∧ c.toNat ≤ 90
  · simp only [if_pos h]
    rw [if_neg (by omega)]
  · simp only [if_neg h]

/-! ### Hashtag validation (`Scanner.extractHashtags` / `Scanner.isValidHashtag`) -/

/-- `/[a-z]/i.test(raw)` on a single character. -/
def isAsciiLetter (c : Char) : Bool :=
  ('a' ≤ c && c ≤ 'z') || ('A' ≤ c && c ≤ 'Z')

/-- `/[a-z]/.test(tag)` on a single character. -/
def isLowerAscii (c : Char) : Bool :=
  'a' ≤ c && c ≤ 'z'

/-- A character of the lowercase tag class `[a-z0-9_-]`. -/
def isLowerClassChar (c : Char) : Bool :=
  ('a' ≤ c && c ≤ 'z') || ('0' ≤ c && c ≤ '9') || c = '_' || c = '-'

theorem isAsciiLetter_iff (c : Char) :
    isAsciiLetter c = true ↔ (97 ≤ c.toNat ∧ c.toNat ≤ 122) ∨ (65 ≤ c.toNat ∧ c.toNat ≤ 90) := by
  have h1 : ('a' : Char).toNat = 97 := rfl
  have h2 : ('z' : Char).toNat = 122 := rfl
  have h3 : ('A' : Char).toNat = 65 := rfl
  have h4 : ('Z' : Char).toNat = 90 := rfl
  simp only [isAsciiLetter, Bool.or_eq_true, Bool.and_eq_true, decide_eq_true_eq,
    char_le_iff, h1, h2, h3, h4]

theorem isLowerAscii_iff (c : Char) :
    isLowerAscii c = true ↔ 97 ≤ c.toNat ∧ c.toNat ≤ 122 := by
  have h1 : ('a' : Char).toNat = 97 := rfl
  have h2 : ('z' : Char).toNat = 122 := rfl
  simp only [isLowerAscii, Bool.and_eq_true, decide_eq_true_eq, char_le_iff, h1, h2]

theorem isLowerAscii_toLower (c : Char) : isLowerAscii c.toLower = isAsciiLetter c := by
  have hiff : isLowerAscii c.toLower = true ↔ isAsciiLetter c = true := by
    rw [isLowerAscii_iff, isAsciiLetter_iff, toLower_toNat]
    by_cases h : 65 ≤ c.toNat ∧ c.toNat ≤ 90
    · rw [if_pos h]
      omega
    · rw [if_neg h]
      omega
  cases h1 : isLowerAscii c.toLower <;> cases h2 : isAsciiLetter c <;> simp_all

/-- Embedding of `Scanner.isValidHashtag` (`src/core/scanner.js`): the tag
must equal its own lowercasing, match `^[a-z0-9_-]+$`, and contain a
lowercase letter. -/
def isValidHashtag (tag : String) : Bool :=
  (tag.toList == tag.toList.map Char.toLower) &&
  (!tag.toList.isEmpty && tag.toList.all isLowerClassChar) &&
  tag.toList.any isLowerAscii

/-- A recorded hashtag occurrence (`{file, line, context}`); `line` is the
value the Scanner stores. -/
structure HashOcc where
  file : String
  line : Nat
  context : String
deriving DecidableEq, Repr

/-- The per-tag record `{count, occurrences}` of the Scanner's result map. -/
structure TagData where
  count : Nat
  occurrences : List HashOcc
deriving DecidableEq, Repr

/-- JS `line.substring(start, stop)` for `start ≤ stop` (clamped at the
ends). -/
def jsSubstring (cs : List Char) (start stop : Nat) : List Char :=
  (cs.take stop).drop start

/-- The `±20`-character context around a match
(`line.substring(Math.max(0, idx - 20), idx + match0len + 20).trim()`,
where `match0len = raw.length + 1` counts the `#`). -/
def mkContext (lineChars : List Char) (idx rawLen : Nat) : String :=
  jsTrim (String.mk (jsSubstring lineChars (idx - 20) (idx + (rawLen + 1) + 20)))

/-- `hashtags[tag]` update of the Scanner loop: bump the count and append
the occurrence, creating the entry (in insertion order) if missing. -/
def insertOcc : List (String × TagData) → String → HashOcc → List (String × TagData)
  | [], tag, occ => [(tag, { count := 1, occurrences := [occ] })]
  | (t, d) :: rest, tag, occ =>
    if t = tag then
      (t, { count := d.count + 1, occurrences := d.occurrences ++ [occ] }) :: rest
    else (t, d) :: insertOcc rest tag occ

/-- The Scanner's validation gate for one raw regex capture, in the order of
the source: reject when no letter; reject all-caps raws of length ≥ 8;
reject when `isValidHashtag` fails on the lowercased tag. -/
def scannerGate (raw : List Char) : Bool :=
  let hasLetter := raw.any isAsciiLetter
  let isAllCaps := hasLetter && (raw == raw.map Char.toUpper)
  if !hasLetter then false
  else if isAllCaps && decide (raw.length ≥ 8) then false
  else isValidHashtag (String.mk (raw.map Char.toLower))

/-- One line of `Scanner.extractHashtags`: run the regex, validate each raw
capture, and record the accepted occurrences under the normalized tag with
the 1-indexed line number. -/
def processLine (file : String) (lineNum : Nat) (lineChars : List Char)
    (m : List (String × TagData)) : List (String × TagData) :=
  (findMatches 0 lineChars).foldl
    (fun acc mt =>
      if scannerGate mt.2 then
        insertOcc acc (String.mk (mt.2.map Char.toLower))
          { file := file, line := lineNum + 1, context := mkContext lineChars mt.1 mt.2.length }
      else acc)
    m

/-- Embedding of `Scanner.extractHashtags` (`src/core/scanner.js`): split
into lines, scan each line with the hashtag regex, validate, and group by
normalized tag. -/
def extractHashtags (content file : String) : List (String × TagData) :=
  ((splitOnChar '\n' content.toList).enum).foldl
    (fun m p => processLine file p.1 p.2 m) []

/-- Embedding of `Phase2Extract.detectHashtags` (`src/phases/phase2-extract.js`):
the same regex over the whole section content, lowercased and de-duplicated
preserving first-seen order — with **no** validation. -/
def detectHashtags (content : String) : List String :=
  (findMatches 0 content.toList).foldl
    (fun acc mt =>
      let tag := String.mk (mt.2.map Char.toLower)
      if acc.contains tag then acc else acc ++ [tag])
    []

/-- The acceptance predicate of claim C8, stated from the claim's words: the
raw capture has a letter, is not an all-uppercase string of length ≥ 8, and
its lowercased form matches `[a-z0-9_-]+`. -/
def claimAccepts (raw : List Char) : Bool :=
  raw.any isAsciiLetter &&
  !((raw == raw.map Char.toUpper) && decide (raw.length ≥ 8)) &&
  (!(raw.map Char.toLower).isEmpty && (raw.map Char.toLower).all isLowerClassChar)

/-- The Scanner's gate decides exactly the claim's three-condition
predicate. -/
theorem scannerGate_eq_claimAccepts (raw : List Char) :
    scannerGate raw = claimAccepts raw := by
  unfold scannerGate claimAccepts
  by_cases hl : raw.any isAsciiLetter = true
  · have hidem : ((raw.map Char.toLower) == (raw.map Char.toLower).map Char.toLower) = true := by
      rw [beq_iff_eq, List.map_map]
      exact List.map_congr_left (fun c _ => (toLower_idem c).symm)
    have hany : (raw.map Char.toLower).any isLowerAscii = true := by
      rw [List.any_map]
      have hc : (isLowerAscii ∘ Char.toLower) = isAsciiLetter := funext isLowerAscii_toLower
      rw [hc]
      exact hl
    have hvalid : isValidHashtag (String.mk (raw.map Char.toLower)) =
        (!(raw.map Char.toLower).isEmpty && (raw.map Char.toLower).all isLowerClassChar) := by
      unfold isValidHashtag
      rw [toList_mk, hidem, hany]
      simp
    simp only [hl, Bool.true_and, Bool.not_true, if_false]
    rw [hvalid]
    by_cases hA : ((raw == raw.map Char.toUpper) && decide (raw.length ≥ 8)) = true
    · simp [hA]
    · simp only [Bool.not_eq_true] at hA
      simp [hA]
  · have hl' : raw.any isAsciiLetter = false := by simpa using hl
    simp [hl']

/-- The occurrence list recorded under `tag` in the Scanner's result map. -/
def occurrencesOfTag : List (String × TagData) → String → List HashOcc
  | [], _ => []
  | (t, d) :: rest, tag => if t = tag then d.occurrences else occurrencesOfTag rest tag

theorem occurrencesOfTag_insertOcc (m : List (String × TagData)) (t : String)
    (occ : HashOcc) (tag : String) :
    occurrencesOfTag (insertOcc m t occ) tag =
      occurrencesOfTag m tag ++ (if t = tag then [occ] else []) := by
  induction m with
  | nil =>
    by_cases ht : t = tag <;> simp [insertOcc, occurrencesOfTag, ht]
  | cons td rest ih =>
    rcases td with ⟨t0, d0⟩
    by_cases h0 : t0 = t
    · subst h0
      simp only [insertOcc, if_pos rfl, occurrencesOfTag]
      by_cases ht : t0 = tag <;> simp [ht]
    · simp only [insertOcc, if_neg h0, occurrencesOfTag]
      by_cases ht : t0 = tag
      · subst ht
        rw [if_pos rfl, if_pos rfl, if_neg (by exact fun h => h0 h.symm)]
        simp
      · rw [if_neg ht, if_neg ht]
        exact ih

/-- The occurrence the Scanner records for the match `mt` on line `lineNum`
(0-based) of `lineChars`. -/
def mkScannerOcc (file : String) (lineNum : Nat) (lineChars : List Char)
    (mt : Nat × List Char) : HashOcc :=
  { file := file, line := lineNum + 1, context := mkContext lineChars mt.1 mt.2.length }

theorem occurrencesOfTag_processMatches (file : String) (lineNum : Nat)
    (lineChars : List Char) (tag : String) :
    ∀ (ms : List (Nat × List Char)) (acc : List (String × TagData)),
    occurrencesOfTag
        (ms.foldl
          (fun acc mt =>
            if scannerGate mt.2 then
              insertOcc acc (String.mk (mt.2.map Char.toLower))
                { file := file, line := lineNum + 1,
                  context := mkContext lineChars mt.1 mt.2.length }
            else acc)
          acc) tag =
      occurrencesOfTag acc tag ++
        ((ms.filter (fun mt =>
            scannerGate mt.2 && (String.mk (mt.2.map Char.toLower) == tag))).map
          (mkScannerOcc file lineNum lineChars)) := by
  intro ms
  induction ms with
  | nil => intro acc; simp
  | cons mt rest ih =>
    intro acc
    simp only [List.foldl_cons, List.filter_cons]
    by_cases hg : scannerGate mt.2 = true
    · simp only [hg, if_true, Bool.true_and]
      rw [ih]
      rw [occurrencesOfTag_insertOcc]
      by_cases ht : String.mk (mt.2.map Char.toLower) = tag
      · rw [if_pos ht]
        have : (String.mk (mt.2.map Char.toLower) == tag) = true := by
          rw [beq_iff_eq]; exact ht
        rw [this]
        simp [mkScannerOcc]
      · rw [if_neg ht]
        have : (String.mk (mt.2.map Char.toLower) == tag) = false := by
          rw [beq_eq_false_iff_ne]; exact ht
        rw [this]
        simp
    · have hg' : scannerGate mt.2 = false := by simpa using hg
      simp only [hg', Bool.false_eq_true, if_false, Bool.false_and]
      exact ih acc

theorem occurrencesOfTag_extract_fold (file : String) (tag : String) :
    ∀ (ls : List (Nat × List Char)) (macc : List (String × TagData)),
    occurrencesOfTag (ls.foldl (fun m p => processLine file p.1 p.2 m) macc) tag =
      occurrencesOfTag macc tag ++
        ls.flatMap (fun p =>
          ((findMatches 0 p.2).filter (fun mt =>
              scannerGate mt.2 && (String.mk (mt.2.map Char.toLower) == tag))).map
            (mkScannerOcc file p.1 p.2)) := by
  intro ls
  induction ls with
  | nil => intro macc; simp
  | cons p rest ih =>
    intro macc
    simp only [List.foldl_cons, List.flatMap_cons]
    rw [ih]
    unfold processLine
    rw [occurrencesOfTag_processMatches]
    simp

/-- C8: the Scanner records a hashtag occurrence for a regex match iff the
raw capture contains a letter, is not an all-uppercase string of length ≥ 8,
and its lowercased form matches `[a-z0-9_-]+` (the `claimAccepts`
predicate); occurrences are grouped under the normalized lowercase tag with
1-indexed line numbers.  Concretely, `#123` and `#UPPERCASE` are rejected
while `#Trading` and `#TRADING` are both recorded under `trading`. -/
theorem c8_scanner_validation (content file tag : String) :
    occurrencesOfTag (extractHashtags content file) tag =
      ((splitOnChar '\n' content.toList).enum).flatMap (fun p =>
        ((findMatches 0 p.2).filter (fun mt =>
            claimAccepts mt.2 && (String.mk (mt.2.map Char.toLower) == tag))).map
          (mkScannerOcc file p.1 p.2)) ∧
    extractHashtags "#123" "daily.md" = [] ∧
    extractHashtags "#UPPERCASE" "daily.md" = [] ∧
    (extractHashtags "#Trading" "daily.md").map Prod.fst = ["trading"] ∧
    (extractHashtags "#TRADING" "daily.md").map Prod.fst = ["trading"] := by
  refine ⟨?_, rfl, rfl, rfl, rfl⟩
  unfold extractHashtags
  rw [occurrencesOfTag_extract_fold]
  simp only [occurrencesOfTag, List.nil_append]
  congr 1
  funext p
  congr 1
  apply List.filter_congr
  intro mt _
  rw [scannerGate_eq_claimAccepts]

/-! ### Scanning a text line by line is the same as scanning it whole

The raw captures the regex produces do not depend on where the scan starts,
and distribute over line breaks: `'\n'` is neither `#` nor a class
character, so no match crosses it. -/

/-- The raw captures of a scan, without match positions. -/
def matchRaws (pos : Nat) (cs : List Char) : List (List Char) :=
  (findMatches pos cs).map Prod.snd

theorem matchRaws_pos_indep : ∀ (n : Nat), ∀ (cs : List Char), ∀ (pos pos' : Nat),
    cs.length ≤ n → matchRaws pos cs = matchRaws pos' cs := by
  intro n
  induction n with
  | zero =>
    intro cs pos pos' h
    have : cs = [] := List.length_eq_zero.mp (Nat.le_zero.mp h)
    subst this
    rfl
  | succ n ih =>
    intro cs pos pos' h
    match cs with
    | [] => rfl
    | c :: rest =>
      simp only [List.length_cons] at h
      by_cases hc : c = '#'
      · subst hc
        unfold matchRaws
        rw [findMatches_hash, findMatches_hash]
        have hrun : (rest.takeWhile isClassChar).length ≤ rest.length :=
          (List.takeWhile_prefix isClassChar).length_le
        by_cases htag : (stripTrailingDashes (rest.takeWhile isClassChar)).isEmpty = true
        · simp only [htag, if_true]
          exact ih rest (pos + 1) (pos' + 1) (by omega)
        · simp only [htag, Bool.false_eq_true, if_false, List.map_cons]
          congr 1
          apply ih
          rw [List.length_append, List.length_drop, List.length_drop]
          omega
      · unfold matchRaws
        rw [findMatches_skip pos c rest hc, findMatches_skip pos' c rest hc]
        exact ih rest (pos + 1) (pos' + 1) (by omega)

theorem takeWhile_append_not {α : Type} (p : α → Bool) (a b : List α) (x : α)
    (hx : p x = false) :
    (a ++ x :: b).takeWhile p = a.takeWhile p := by
  induction a with
  | nil => simp [List.takeWhile_cons, hx]
  | cons y ys ih =>
    simp only [List.cons_append, List.takeWhile_cons]
    cases p y <;> simp [ih]

theorem drop_append_le {α : Type} (a b : List α) (n : Nat) (h : n ≤ a.length) :
    (a ++ b).drop n = a.drop n ++ b := by
  induction a generalizing n with
  | nil =>
    simp only [List.length_nil, Nat.le_zero] at h
    subst h
    simp
  | cons x xs ih =>
    cases n with
    | zero => simp
    | succ n =>
      simp only [List.length_cons, Nat.succ_le_succ_iff] at h
      simp only [List.cons_append, List.drop_succ_cons]
      exact ih n h

theorem matchRaws_split_newline : ∀ (n : Nat), ∀ (a b : List Char), ∀ (pos : Nat),
    a.length ≤ n →
    matchRaws pos (a ++ '\n' :: b) = matchRaws pos a ++ matchRaws 0 b := by
  intro n
  induction n with
  | zero =>
    intro a b pos h
    have : a = [] := List.length_eq_zero.mp (Nat.le_zero.mp h)
    subst this
    simp only [List.nil_append]
    unfold matchRaws
    rw [findMatches_skip pos '\n' b (by decide)]
    simp only [findMatches_nil, List.map_nil, List.nil_append]
    exact matchRaws_pos_indep b.length b (pos + 1) 0 (Nat.le_refl _)
  | succ n ih =>
    intro a b pos h
    match a with
    | [] =>
      simp only [List.nil_append]
      unfold matchRaws
      rw [findMatches_skip pos '\n' b (by decide)]
      simp only [findMatches_nil, List.map_nil, List.nil_append]
      exact matchRaws_pos_indep b.length b (pos + 1) 0 (Nat.le_refl _)
    | c :: a' =>
      simp only [List.length_cons] at h
      by_cases hc : c = '#'
      · subst hc
        have hrunE : ((a' ++ '\n' :: b).takeWhile isClassChar) = a'.takeWhile isClassChar :=
          takeWhile_append_not isClassChar a' b '\n' (by decide)
        have hrun : (a'.takeWhile isClassChar).length ≤ a'.length :=
          (List.takeWhile_prefix isClassChar).length_le
        have hrest2 : (a' ++ '\n' :: b).drop (a'.takeWhile isClassChar).length =
            a'.drop (a'.takeWhile isClassChar).length ++ '\n' :: b :=
          drop_append_le a' ('\n' :: b) _ hrun
        unfold matchRaws
        rw [List.cons_append, findMatches_hash, findMatches_hash]
        simp only [hrunE, hrest2]
        by_cases htag : (stripTrailingDashes (a'.takeWhile isClassChar)).isEmpty = true
        · simp only [htag, if_true]
          exact ih a' b (pos + 1) (by omega)
        · simp only [htag, Bool.false_eq_true, if_false, List.map_cons, List.cons_append]
          congr 1
          rw [← List.append_assoc]
          have hlen : ((a'.takeWhile isClassChar).drop
              (stripTrailingDashes (a'.takeWhile isClassChar)).length ++
              a'.drop (a'.takeWhile isClassChar).length).length ≤ n := by
            rw [List.length_append, List.length_drop, List.length_drop]
            omega
          exact ih _ b _ hlen
      · unfold matchRaws
        rw [List.cons_append, findMatches_skip pos c _ hc, findMatches_skip pos c a' hc]
        exact ih a' b (pos + 1) (by omega)

theorem splitOnChar_first (sep : Char) (a b : List Char) (h : ∀ c ∈ a, c ≠ sep) :
    splitOnChar sep (a ++ sep :: b) = a :: splitOnChar sep b := by
  induction a with
  | nil =>
    show splitOnChar sep (sep :: b) = [] :: splitOnChar sep b
    simp only [splitOnChar]
    rcases hsp : splitOnChar sep b with _ | ⟨h0, t0⟩
    · exact absurd hsp (splitOnChar_ne_nil sep b)
    · simp
  | cons c rest ih =>
    have hc : c ≠ sep := h c (by simp)
    have hrest := ih (fun x hx => h x (by simp [hx]))
    show splitOnChar sep (c :: (rest ++ sep :: b)) = (c :: rest) :: splitOnChar sep b
    simp only [splitOnChar, hrest, if_neg hc]

theorem dropWhile_head_false {α : Type} (p : α → Bool) (cs : List α) (d : α) (ds : List α)
    (h : cs.dropWhile p = d :: ds) : p d = false := by
  induction cs with
  | nil => simp [List.dropWhile] at h
  | cons x xs ih =>
    rw [List.dropWhile_cons] at h
    by_cases hp : p x = true
    · rw [if_pos hp] at h
      exact ih h
    · rw [if_neg hp] at h
      injection h with h1 h2
      subst h1
      simpa using hp

theorem matchRaws_splitOnChar : ∀ (n : Nat), ∀ (cs : List Char), cs.length ≤ n →
    matchRaws 0 cs = (splitOnChar '\n' cs).flatMap (matchRaws 0) := by
  intro n
  induction n with
  | zero =>
    intro cs h
    have : cs = [] := List.length_eq_zero.mp (Nat.le_zero.mp h)
    subst this
    rfl
  | succ n ih =>
    intro cs h
    by_cases hnl : ∀ c ∈ cs, c ≠ '\n'
    · rw [splitOnChar_of_not_mem '\n' cs hnl]
      simp
    · push_neg at hnl
      obtain ⟨x, hx, hxe⟩ := hnl
      -- split `cs` at its first newline
      have hdecomp : cs = cs.takeWhile (fun c => !(c = '\n')) ++
          '\n' :: (cs.dropWhile (fun c => !(c = '\n'))).tail := by
        have hjoin := List.takeWhile_append_dropWhile (fun c : Char => !(c = '\n')) cs
        rcases hd : cs.dropWhile (fun c : Char => !(c = '\n')) with _ | ⟨d, ds⟩
        · exfalso
          have hmem : x ∈ cs.takeWhile (fun c : Char => !(c = '\n')) := by
            rw [← hjoin] at hx
            simpa [hd] using hx
          have := List.mem_takeWhile_imp hmem
          simp [hxe] at this
        · have hdn : d = '\n' := by
            have := dropWhile_head_false (fun c : Char => !(c = '\n')) cs d ds hd
            simpa using this
          conv_lhs => rw [← hjoin]
          rw [hd, hdn]
          simp
      set a := cs.takeWhile (fun c : Char => !(c = '\n')) with ha
      set b := (cs.dropWhile (fun c : Char => !(c = '\n'))).tail with hb
      have hane : ∀ c ∈ a, c ≠ '\n' := by
        intro c hcmem
        have := List.mem_takeWhile_imp hcmem
        simpa using this
      have hlen : a.length + 1 + b.length = cs.length := by
        conv_rhs => rw [hdecomp]
        simp only [List.length_append, List.length_cons]
        omega
      rw [hdecomp, splitOnChar_first '\n' a b hane,
        matchRaws_split_newline a.length a b 0 (Nat.le_refl _)]
      simp only [List.flatMap_cons]
      congr 1
      exact ih b (by omega)

/-- Membership in Phase 2's de-duplicating fold. -/
theorem mem_detect_fold (ms : List (Nat × List Char)) :
    ∀ (acc : List String) (tag : String),
    tag ∈ ms.foldl
        (fun acc mt =>
          let t := String.mk (mt.2.map Char.toLower)
          if acc.contains t then acc else acc ++ [t])
        acc ↔
      tag ∈ acc ∨ ∃ mt ∈ ms, String.mk (mt.2.map Char.toLower) = tag := by
  induction ms with
  | nil => intro acc tag; simp
  | cons mt rest ih =>
    intro acc tag
    simp only [List.foldl_cons]
    rw [ih]
    by_cases hc : acc.contains (String.mk (mt.2.map Char.toLower)) = true
    · simp only [hc, if_true]
      have hmem : String.mk (mt.2.map Char.toLower) ∈ acc := by
        rw [List.contains_eq_any_beq] at hc
        rcases List.any_eq_true.mp hc with ⟨y, hy, hby⟩
        rw [beq_iff_eq] at hby
        rw [hby]
        exact hy
      constructor
      · rintro (h | ⟨mt', hmem', heq'⟩)
        · exact Or.inl h
        · exact Or.inr ⟨mt', List.mem_cons_of_mem _ hmem', heq'⟩
      · rintro (h | ⟨mt', hmem', heq'⟩)
        · exact Or.inl h
        · rcases List.mem_cons.mp hmem' with h0 | h0
          · subst h0
            exact Or.inl (heq' ▸ hmem)
          · exact Or.inr ⟨mt', h0, heq'⟩
    · simp only [hc, Bool.false_eq_true, if_false]
      constructor
      · rintro (h | ⟨mt', hmem', heq'⟩)
        · rcases List.mem_append.mp h with h0 | h0
          · exact Or.inl h0
          · exact Or.inr ⟨mt, List.mem_cons_self _ _, (List.mem_singleton.mp h0).symm⟩
        · exact Or.inr ⟨mt', List.mem_cons_of_mem _ hmem', heq'⟩
      · rintro (h | ⟨mt', hmem', heq'⟩)
        · exact Or.inl (List.mem_append.mpr (Or.inl h))
        · rcases List.mem_cons.mp hmem' with h0 | h0
          · subst h0
            exact Or.inl (List.mem_append.mpr (Or.inr (by simp [heq'])))
          · exact Or.inr ⟨mt', h0, heq'⟩

theorem snd_mem_enumFrom {α : Type} : ∀ (l : List α) (k : Nat) (p : Nat × α),
    p ∈ l.enumFrom k → p.2 ∈ l := by
  intro l
  induction l with
  | nil =>
    intro k p hp
    simp [List.enumFrom] at hp
  | cons x xs ih =>
    intro k p hp
    rw [List.enumFrom] at hp
    rcases List.mem_cons.mp hp with h | h
    · subst h
      simp
    · exact List.mem_cons_of_mem _ (ih (k + 1) p h)

/-- Counterexample to claim C7: on the section content `"#123"`, Phase 2's
`detectHashtags` accepts the tag `123`, while the Scanner's extraction (same
regex *plus* validation) accepts nothing — the two do not agree, because
`detectHashtags` applies none of the Scanner's validity rules. -/
theorem c7_detect_counterexample :
    detectHashtags "#123" = ["123"] ∧
    extractHashtags "#123" "daily.md" = [] ∧
    "123" ∈ detectHashtags "#123" ∧
    occurrencesOfTag (extractHashtags "#123" "daily.md") "123" = [] := by
  refine ⟨rfl, rfl, ?_, rfl⟩
  rw [show detectHashtags "#123" = ["123"] from rfl]
  exact List.mem_singleton.mpr rfl

/-- C7, amended: Phase 2's `detectHashtags` uses the same regex as the
Scanner but applies none of its validity rules; consequently it accepts a
*superset*: every normalized tag the Scanner records anywhere in a text is
among the tags `detectHashtags` returns for that text. -/
theorem c7_detect_superset (content file tag : String)
    (h : occurrencesOfTag (extractHashtags content file) tag ≠ []) :
    tag ∈ detectHashtags content := by
  unfold extractHashtags at h
  rw [occurrencesOfTag_extract_fold] at h
  simp only [occurrencesOfTag, List.nil_append] at h
  have hex : ∃ p ∈ (splitOnChar '\n' content.toList).enum,
      ((findMatches 0 p.2).filter (fun mt =>
          scannerGate mt.2 && (String.mk (mt.2.map Char.toLower) == tag))).map
        (mkScannerOcc file p.1 p.2) ≠ [] := by
    by_contra hall
    push_neg at hall
    exact h (List.flatMap_eq_nil_iff.mpr hall)
  obtain ⟨p, hp, hne⟩ := hex
  rcases hfil : (findMatches 0 p.2).filter (fun mt =>
      scannerGate mt.2 && (String.mk (mt.2.map Char.toLower) == tag)) with _ | ⟨mt0, rest0⟩
  · rw [hfil] at hne
    simp at hne
  · have hmem0 : mt0 ∈ (findMatches 0 p.2).filter (fun mt =>
        scannerGate mt.2 && (String.mk (mt.2.map Char.toLower) == tag)) := by
      rw [hfil]
      exact List.mem_cons_self _ _
    have hmem := List.mem_of_mem_filter hmem0
    have hpred := List.of_mem_filter hmem0
    have heq : String.mk (mt0.2.map Char.toLower) = tag := by
      have := (Bool.and_eq_true _ _).mp hpred
      exact beq_iff_eq.mp this.2
    have hraw : mt0.2 ∈ matchRaws 0 p.2 := List.mem_map_of_mem Prod.snd hmem
    have hline : p.2 ∈ splitOnChar '\n' content.toList :=
      snd_mem_enumFrom _ 0 p hp
    have hrawAll : mt0.2 ∈ matchRaws 0 content.toList := by
      rw [matchRaws_splitOnChar content.toList.length content.toList (Nat.le_refl _)]
      exact List.mem_flatMap.mpr ⟨p.2, hline, hraw⟩
    obtain ⟨mt', hmt', hsnd⟩ := List.mem_map.mp hrawAll
    unfold detectHashtags
    rw [mem_detect_fold]
    right
    refine ⟨mt', hmt', ?_⟩
    rw [hsnd]
    exact heq

/-- Witness for `c7_detect_superset`: the Scanner records `trading` from
`#Trading`, and Phase 2 detects it too. -/
theorem c7_detect_superset_witness :
    occurrencesOfTag (extractHashtags "#Trading" "daily.md") "trading" ≠ [] ∧
    "trading" ∈ detectHashtags "#Trading" :=
  ⟨by decide, c7_detect_superset "#Trading" "daily.md" "trading" (by decide)⟩

/-! ## Markdown section parser (`Parser.parseSections`, `src/core/parser.js`)

Sections span from their `^(#{2,})\s+(.+)$` header line to the line before
the next header (or end of file), with trailing blank lines trimmed; empty
sections are dropped; a file without headers becomes one synthetic section.
The header regex is embedded as: a maximal run of ≥ 2 `#`s, at least one
whitespace character, then a nonempty remainder as the (trimmed) title —
when only whitespace follows, the greedy `\s+` backtracks one character
into `(.+)`, so a header with ≥ 2 trailing whitespace characters and no
text still matches, with a whitespace title that trims to `""`. -/

/-- One parsed section `{index, title, level, lineStart, lineEnd, content}`. -/
structure MdSection where
  index : Nat
  title : String
  level : Nat
  lineStart : Nat
  lineEnd : Nat
  content : String
deriving DecidableEq, Repr

/-- The header regex `^(#{2,})\s+(.+)$` on one line, returning
`(level, trimmed title)`. -/
def headerMatch (l : List Char) : Option (Nat × String) :=
  let hs := l.takeWhile (fun c => c = '#')
  if hs.length < 2 then none
  else
    let rest := l.drop hs.length
    let ws := rest.takeWhile jsWS
    let rest2 := rest.drop ws.length
    if ws.length = 0 then none
    else if !rest2.isEmpty then some (hs.length, jsTrim (String.mk rest2))
    else if ws.length ≥ 2 then some (hs.length, "")
    else none

/-- All header lines of a file: `(0-based line index, level, title)`. -/
def findHeaders (lines : List String) : List (Nat × Nat × String) :=
  lines.enum.filterMap (fun p => (headerMatch p.2.toList).map (fun lt => (p.1, lt.1, lt.2)))

/-- The `while (endLine > startLine && lines[endLine].trim() === '')` loop
trimming trailing blank lines. -/
def shrinkEnd (lines : List String) (start : Nat) : Nat → Nat
  | 0 => 0
  | e + 1 =>
    if start < e + 1 ∧ jsTrim (lines.getD (e + 1) "") = "" then shrinkEnd lines start e
    else e + 1

/-- The section-building loop of `parseSections`: `i` is the header index,
and each section ends just before the next header (or at end of file). -/
def sectionsLoop (lines : List String) : Nat → List (Nat × Nat × String) → List MdSection
  | _, [] => []
  | i, h :: hs =>
    let startLine := h.1
    let endRaw :=
      match hs with
      | h2 :: _ => h2.1 - 1
      | [] => lines.length - 1
    let endLine := shrinkEnd lines startLine endRaw
    let sectionLines := (lines.drop startLine).take (endLine + 1 - startLine)
    let sectionContent := jsTrim (joinLines sectionLines)
    let rest := sectionsLoop lines (i + 1) hs
    if sectionContent.length = 0 then rest
    else
      { index := i, title := h.2.2, level := h.2.1, lineStart := startLine,
        lineEnd := endLine, content := sectionContent } :: rest

/-- JS `String.prototype.replace` with a plain-string pattern: replace the
first occurrence only. -/
def replaceFirstChars (pat rep : List Char) : List Char → List Char
  | [] => []
  | c :: rest =>
    if pat.isPrefixOf (c :: rest) then rep ++ (c :: rest).drop pat.length
    else c :: replaceFirstChars pat rep rest

/-- Embedding of `Parser.parseSections` (the CommonJS variant of
`src/core/parser.js`, the one with trailing-blank-line trimming). -/
def parseSections (content filename : String) : List MdSection :=
  let lines := (splitOnChar '\n' content.toList).map (fun cs => String.mk cs)
  let headers := findHeaders lines
  let secs := sectionsLoop lines 0 headers
  if secs.isEmpty ∧ (jsTrim content).length > 0 then
    [{ index := 0,
       title := String.mk (replaceFirstChars ".md".toList [] filename.toList),
       level := 2, lineStart := 0, lineEnd := lines.length - 1,
       content := jsTrim content }]
  else secs

/-! ## Extractions (`Phase2Extract`, `src/phases/phase2-extract.js`) -/

/-- An Extraction record (§3 entity 7). -/
structure Extraction where
  id : String
  source_file : String
  source_line_start : Nat
  source_line_end : Nat
  section_title : String
  primary_topic : String
  secondary_topics : List String
  full_content : String
  content_hash : String
  extracted_at : String
deriving DecidableEq, Repr

/-- Decimal digit test for the dated-filename regexes. -/
def isDigitChar (c : Char) : Bool :=
  '0' ≤ c && c ≤ '9'

/-- Try to match `memory-(\d{4})-(\d{2})-(\d{2})` at the head of `cs`,
returning the date as `YYYY-MM-DD`. -/
def matchDatedHere : List Char → Option String
  | 'm' :: 'e' :: 'm' :: 'o' :: 'r' :: 'y' :: '-' ::
      y1 :: y2 :: y3 :: y4 :: '-' :: m1 :: m2 :: '-' :: d1 :: d2 :: _ =>
    if isDigitChar y1 && isDigitChar y2 && isDigitChar y3 && isDigitChar y4 &&
        isDigitChar m1 && isDigitChar m2 && isDigitChar d1 && isDigitChar d2 then
      some (String.mk [y1, y2, y3, y4, '-', m1, m2, '-', d1, d2])
    else none
  | _ => none

/-- Unanchored search for the dated pattern (`String.prototype.match` with
`/memory-(\d{4})-(\d{2})-(\d{2})/` or `/memory-(\d{4}-\d{2}-\d{2})/`). -/
def findDatedDate : List Char → Option String
  | [] => none
  | c :: rest =>
    match matchDatedHere (c :: rest) with
    | some z => some z
    | none => findDatedDate rest

/-- `Phase2Extract.generateExtractionId`: `YYYYMMDD-NN` with the section
index zero-padded to two digits (`unknown` when the filename has no date). -/
def generateExtractionId (filename : String) (sectionIndex : Nat) : String :=
  let dateStr :=
    match findDatedDate filename.toList with
    | some d => String.mk (d.toList.filter (fun c => c ≠ '-'))
    | none => "unknown"
  let idx := toString sectionIndex
  let padded := if idx.length < 2 then "0" ++ idx else idx
  dateStr ++ "-" ++ padded

/-- The Extraction `Phase2Extract.execute` builds from a parsed section,
given the canonical primary/secondary topic assignment, a hash function for
`crypto.createHash('sha256')` and the current timestamp. -/
def mkExtraction (sha : String → String) (now : String) (file : String)
    (primary : String) (secondary : List String) (s : MdSection) : Extraction :=
  { id := generateExtractionId file s.index
    source_file := file
    source_line_start := s.lineStart
    source_line_end := s.lineEnd
    section_title := s.title
    primary_topic := primary
    secondary_topics := secondary
    full_content := s.content
    content_hash := sha s.content
    extracted_at := now }

/-! ## Phase 4 — stub replacement slicing (`Phase4Update.replaceWithStubs`,
`src/phases/phase4-update.js`)

`beforeLines = lines.slice(0, start)`, `afterLines = lines.slice(end + 1)`:
one replacement substitutes the stub for exactly the 0-based inclusive line
range `[source_line_start .. source_line_end]`. -/

def replaceSectionWithStub (lines : List String) (e : Extraction)
    (stub : List String) : List String :=
  lines.take e.source_line_start ++ stub ++ lines.drop (e.source_line_end + 1)

/-! ## Phase 3 — entry generation and primary-entry writing
(`Phase3Organize`, `src/phases/phase3-organize.js`)

Topic-file contents are modelled as lists of lines; the JS template strings
are rendered line by line (`a + '\n' + b` is `linesOf a ++ linesOf b`).
The source file contains the mojibake `â€”` (a double-encoded em dash);
the embedding reproduces it verbatim. -/

/-- `Phase3Organize.extractDateFromFile`:
`filename.match(/memory-(\d{4}-\d{2}-\d{2})/)`, else `"unknown"`. -/
def extractDateFromFile (filename : String) : String :=
  match findDatedDate filename.toList with
  | some d => d
  | none => "unknown"

/-- `Phase3Organize.generateTopicHeader` as its list of lines (`today` is
`new Date().toISOString().split('T')[0]`). -/
def generateTopicHeader (topic : String) (today : String) : List String :=
  ["# " ++ capitalizeFirst (sanitizeTopicName topic),
   "",
   "> Auto-curated notes from daily logs",
   "> Topic: #" ++ sanitizeTopicName topic,
   "> Last polished: " ++ today,
   "",
   "---",
   ""]

/-- `Phase3Organize.generateEntry` as its list of lines (appends grouped to
the right so each line starts with its template literal). -/
def generateEntry (e : Extraction) : List String :=
  let date := extractDateFromFile e.source_file
  let line := e.source_line_start
  let secondaryTags :=
    if e.secondary_topics.isEmpty then ""
    else " #" ++ String.intercalate " #" (e.secondary_topics.map sanitizeTopicName)
  ["### " ++ (date ++ (" â€” [" ++ (e.source_file ++ ("](../" ++ (e.source_file ++
      ("#L" ++ (toString line ++ ")"))))))),
   ""]
  ++ (splitOnChar '\n' e.full_content.toList).map (fun cs => String.mk cs)
  ++ ["",
      "**Topics:** #" ++ (sanitizeTopicName e.primary_topic ++ secondaryTags),
      "**Source:** " ++ (e.source_file ++ (" (lines " ++ (toString e.source_line_start ++
        ("-" ++ (toString e.source_line_end ++ ")"))))),
      "**Hash:** " ++ e.content_hash,
      "",
      "---",
      ""]

/-- A topic-file system: file name (under `Topics/`) to content lines. -/
def TopicFS : Type := String → Option (List String)

/-- The topic file name `getSafeTopicPath` resolves for a topic (its single
path component under the topics directory, cf. `c1_safe_topic_path`). -/
def topicFileName (topic : String) : String :=
  capitalizeFirst (sanitizeTopicName topic) ++ ".md"

/-- Embedding of `Phase3Organize.writePrimaryEntries`: for each extraction
in order, append its entry to the (existing or newly headed) topic file of
its primary topic.  Returns the filesystem and `entriesWritten`. -/
def writePrimaryEntries (today : String) (fs : TopicFS)
    (extractions : List Extraction) : TopicFS × Nat :=
  extractions.foldl
    (fun (st : TopicFS × Nat) e =>
      let fname := topicFileName e.primary_topic
      let entry := generateEntry e
      let newContent :=
        match st.1 fname with
        | some existing => existing ++ entry
        | none => generateTopicHeader e.primary_topic today ++ entry
      (fun n => if n = fname then some newContent else st.1 n, st.2 + 1))
    (fs, 0)

/-- The number of lines `**Hash:** <h>` in a topic file's content. -/
def countHashLine (lines : List String) (h : String) : Nat :=
  lines.count ("**Hash:** " ++ h)

/-! ### No line of a topic header or entry other than the `**Hash:**` line
can equal a `**Hash:**` line -/

theorem ne_hashline (s h : String) (k : Nat) (hk2 : k < "**Hash:** ".toList.length)
    (hget : s.toList.get? k ≠ ("**Hash:** ").toList.get? k) :
    s ≠ "**Hash:** " ++ h := by
  intro he
  have h2 := congrArg String.toList he
  rw [toList_append] at h2
  have h3 := congrArg (fun l => l.get? k) h2
  simp only at h3
  rw [List.get?_append hk2] at h3
  exact hget h3

theorem empty_ne_hashline (h : String) : "" ≠ "**Hash:** " ++ h := by
  intro he
  have h2 := congrArg (fun s => s.toList.length) he
  simp only at h2
  rw [toList_append, List.length_append] at h2
  have h3 : ("" : String).toList.length = 0 := rfl
  have h4 : ("**Hash:** " : String).toList.length = 10 := rfl
  omega

theorem prefixed_ne_hashline (p s h : String) (k : Nat)
    (hk1 : k < p.toList.length) (hk2 : k < "**Hash:** ".toList.length)
    (hget : p.toList.get? k ≠ ("**Hash:** ").toList.get? k) :
    (p ++ s) ≠ "**Hash:** " ++ h := by
  apply ne_hashline _ _ k hk2
  rw [toList_append, List.get?_append hk1]
  exact hget

theorem countHashLine_header (topic today h : String) :
    countHashLine (generateTopicHeader topic today) h = 0 := by
  unfold countHashLine generateTopicHeader
  rw [List.count_eq_zero]
  intro hmem
  simp only [List.mem_cons, List.not_mem_nil, or_false] at hmem
  rcases hmem with h1 | h1 | h1 | h1 | h1 | h1 | h1 | h1 <;> apply_fun id at h1
  · exact prefixed_ne_hashline "# " _ h 0 (by decide) (by decide) (by decide) h1.symm
  · exact empty_ne_hashline h h1.symm
  · exact ne_hashline _ h 0 (by decide) (by decide) h1.symm
  · exact prefixed_ne_hashline "> Topic: #" _ h 0 (by decide) (by decide) (by decide) h1.symm
  · exact prefixed_ne_hashline "> Last polished: " _ h 0 (by decide) (by decide) (by decide) h1.symm
  · exact empty_ne_hashline h h1.symm
  · exact ne_hashline _ h 0 (by decide) (by decide) h1.symm
  · exact empty_ne_hashline h h1.symm

theorem countHashLine_entry (e : Extraction)
    (hcontent : countHashLine
        ((splitOnChar '\n' e.full_content.toList).map (fun cs => String.mk cs))
        e.content_hash = 0) :
    countHashLine (generateEntry e) e.content_hash = 1 := by
  unfold countHashLine generateEntry
  unfold countHashLine at hcontent
  simp only [List.count_append, List.count_cons, List.count_nil, hcontent]
  have h1 : (("### " ++ (extractDateFromFile e.source_file ++ (" â€” [" ++ (e.source_file ++
      ("](../" ++ (e.source_file ++ ("#L" ++ (toString e.source_line_start ++ ")")))))))) ==
      ("**Hash:** " ++ e.content_hash)) = false := by
    rw [beq_eq_false_iff_ne]
    exact prefixed_ne_hashline "### " _ _ 0 (by decide) (by decide) (by decide)
  have h2 : (("" : String) == ("**Hash:** " ++ e.content_hash)) = false := by
    rw [beq_eq_false_iff_ne]
    exact empty_ne_hashline _
  have h3 : (("**Topics:** #" ++ (sanitizeTopicName e.primary_topic ++
      (if e.secondary_topics.isEmpty then ""
       else " #" ++ String.intercalate " #" (e.secondary_topics.map sanitizeTopicName)))) ==
      ("**Hash:** " ++ e.content_hash)) = false := by
    rw [beq_eq_false_iff_ne]
    exact prefixed_ne_hashline "**Topics:** #" _ _ 2 (by decide) (by decide) (by decide)
  have h4 : (("**Source:** " ++ (e.source_file ++ (" (lines " ++ (toString e.source_line_start ++
      ("-" ++ (toString e.source_line_end ++ ")")))))) ==
      ("**Hash:** " ++ e.content_hash)) = false := by
    rw [beq_eq_false_iff_ne]
    exact prefixed_ne_hashline "**Source:** " _ _ 2 (by decide) (by decide) (by decide)
  have h5 : (("**Hash:** " ++ e.content_hash) == ("**Hash:** " ++ e.content_hash)) = true :=
    beq_self_eq_true _
  have h6 : (("---" : String) == ("**Hash:** " ++ e.content_hash)) = false := by
    rw [beq_eq_false_iff_ne]
    exact ne_hashline _ _ 0 (by decide) (by decide)
  rw [h1, h2, h3, h4, h5, h6]
  simp

theorem countHashLine_append (a b : List String) (h : String) :
    countHashLine (a ++ b) h = countHashLine a h + countHashLine b h := by
  unfold countHashLine
  exact List.count_append _ _ _

/-- A concrete extraction for exercising Phase 3's topic-file writing. -/
def c4Extraction : Extraction :=
  { id := "20260205-00"
    source_file := "memory-2026-02-05.md"
    source_line_start := 2
    source_line_end := 4
    section_title := "T"
    primary_topic := "trading"
    secondary_topics := []
    full_content := "x #trading"
    content_hash := "abc123"
    extracted_at := "2026-02-05T10:00:00.000Z" }

/-- Counterexample to claim C4: running `writePrimaryEntries` twice over the
same single-extraction list appends the entry again — the `**Hash:**` line
appears twice afterwards, not once, and the topic-file content differs from
the single-run content (no hash detection happens on append; only
`mergeTopics` deduplicates by hash). -/
theorem c4_write_twice_counterexample :
    countHashLine
        (((writePrimaryEntries "2026-02-06" (fun _ => none) [c4Extraction]).1
          "Trading.md").getD []) "abc123" = 1 ∧
    countHashLine
        (((writePrimaryEntries "2026-02-06"
            (writePrimaryEntries "2026-02-06" (fun _ => none) [c4Extraction]).1
            [c4Extraction]).1 "Trading.md").getD []) "abc123" = 2 ∧
    (writePrimaryEntries "2026-02-06"
        (writePrimaryEntries "2026-02-06" (fun _ => none) [c4Extraction]).1
        [c4Extraction]).1 "Trading.md" ≠
      (writePrimaryEntries "2026-02-06" (fun _ => none) [c4Extraction]).1 "Trading.md" := by
  refine ⟨?_, ?_, ?_⟩ <;> decide

/-- C4, amended: a *single* run of Phase 3's topic-file writing over a fresh
topic file writes the extraction's `**Hash:** <content_hash>` line exactly
once; a second run over the same extraction appends the entry again, giving
two copies — `writePrimaryEntries` performs no hash-based deduplication
(only the merge step `mergeTopics` filters by existing hashes). -/
theorem c4_single_run_hash_once (today : String) (fs : TopicFS) (e : Extraction)
    (hfresh : fs (topicFileName e.primary_topic) = none)
    (hcontent : countHashLine
        ((splitOnChar '\n' e.full_content.toList).map (fun cs => String.mk cs))
        e.content_hash = 0) :
    countHashLine (((writePrimaryEntries today fs [e]).1
        (topicFileName e.primary_topic)).getD []) e.content_hash = 1 ∧
    countHashLine (((writePrimaryEntries today
          (writePrimaryEntries today fs [e]).1 [e]).1
        (topicFileName e.primary_topic)).getD []) e.content_hash = 2 := by
  have hstep1 : (writePrimaryEntries today fs [e]).1 (topicFileName e.primary_topic) =
      some (generateTopicHeader e.primary_topic today ++ generateEntry e) := by
    unfold writePrimaryEntries
    simp [hfresh]
  have hstep2 : (writePrimaryEntries today (writePrimaryEntries today fs [e]).1 [e]).1
        (topicFileName e.primary_topic) =
      some ((generateTopicHeader e.primary_topic today ++ generateEntry e) ++
        generateEntry e) := by
    conv_lhs => unfold writePrimaryEntries
    simp [hstep1]
    rw [hfresh, List.append_assoc]
  constructor
  · rw [hstep1]
    simp only [Option.getD_some]
    rw [countHashLine_append, countHashLine_header, countHashLine_entry e hcontent]
  · rw [hstep2]
    simp only [Option.getD_some]
    rw [countHashLine_append, countHashLine_append, countHashLine_header,
      countHashLine_entry e hcontent]

/-- Witness for `c4_single_run_hash_once` at a concrete extraction. -/
theorem c4_single_run_hash_once_witness :
    ((fun _ => none : TopicFS) (topicFileName c4Extraction.primary_topic) = none) ∧
    countHashLine
        ((splitOnChar '\n' c4Extraction.full_content.toList).map (fun cs => String.mk cs))
        c4Extraction.content_hash = 0 ∧
    countHashLine (((writePrimaryEntries "2026-02-06" (fun _ => none) [c4Extraction]).1
        (topicFileName c4Extraction.primary_topic)).getD []) c4Extraction.content_hash = 1 := by
  refine ⟨rfl, by decide, ?_⟩
  exact (c4_single_run_hash_once "2026-02-06" (fun _ => none) c4Extraction rfl (by decide)).1

/-! ## Phase 0 — daily-log backup (`Phase0Init.backupFiles`,
`src/phases/phase0-init.js`)

The file system is modelled by a `readFile` map, SHA-256 by an abstract
`sha` map, and the backup directory by a `store` predicate on hashes
(`backup.getBackupPath` + `fs.access`), which `backup.create` extends. -/

/-- The daily-log filename regex `^memory-\d{4}-\d{2}-\d{2}\.md$`. -/
def isDailyLogName (s : String) : Bool :=
  match s.toList with
  | 'm' :: 'e' :: 'm' :: 'o' :: 'r' :: 'y' :: '-' ::
      y1 :: y2 :: y3 :: y4 :: '-' :: m1 :: m2 :: '-' :: d1 :: d2 ::
      '.' :: 'm' :: 'd' :: [] =>
    isDigitChar y1 && isDigitChar y2 && isDigitChar y3 && isDigitChar y4 &&
    isDigitChar m1 && isDigitChar m2 && isDigitChar d1 && isDigitChar d2
  | _ => false

/-- The mutable state of the `backupFiles` loop: the backup store plus the
transaction log and the `backupCount` / `totalSize` counters. -/
structure BackupState where
  store : String → Bool
  log : List TxnEntry
  count : Nat
  totalSize : Nat

/-- One iteration of the `for (const file of dailyFiles)` loop: hash the
content; if the hash is already backed up, `continue` (no transaction
entry); otherwise create the backup and log a `backup`/`success` entry. -/
def backupStep (sha readFile : String → String) (st : BackupState)
    (file : String) : BackupState :=
  let content := readFile file
  let hash := sha content
  if st.store hash then st
  else
    { store := fun h => if h = hash then true else st.store h,
      log := st.log ++ [{ action := "backup", target := some file,
                          hash := some hash, status := "success" }],
      count := st.count + 1,
      totalSize := st.totalSize + content.length }

/-- Embedding of `Phase0Init.backupFiles`: filter the directory listing by
the dated-filename regex (the **only** filter applied) and run the backup
loop over the matching files. -/
def backupFiles (sha readFile : String → String) (st0 : BackupState)
    (files : List String) : BackupState :=
  (files.filter (fun f => isDailyLogName f)).foldl (backupStep sha readFile) st0

/-- Modelled from the spec (refinement comparison, not from the source):
the claimed lookback-window filter.  A dated daily-log file is in the
window iff its `YYYY-MM-DD` date is between the window start and today
inclusive; on fixed-width ISO dates, lexicographic order is date order. -/
def specWindowContains (startDate today file : String) : Bool :=
  if isDailyLogName file then
    let d := (file.toList.drop 7).take 10
    lexLe startDate.toList d && lexLe d today.toList
  else false

theorem backupStep_foldl (sha readFile : String → String) (fs : List String) :
    ∀ st : BackupState,
      (∀ f ∈ fs, st.store (sha (readFile f)) = false) →
      (fs.map (fun f => sha (readFile f))).Nodup →
      (fs.foldl (backupStep sha readFile) st).log =
          st.log ++ fs.map (fun f =>
            ({ action := "backup", target := some f,
               hash := some (sha (readFile f)),
               status := "success" } : TxnEntry)) ∧
      (fs.foldl (backupStep sha readFile) st).count = st.count + fs.length := by
  induction fs with
  | nil => intro st _ _; simp
  | cons f rest ih =>
    intro st hfresh hdist
    rw [List.foldl_cons]
    have hf : st.store (sha (readFile f)) = false :=
      hfresh f (List.mem_cons_self _ _)
    have hstep : backupStep sha readFile st f =
        { store := fun h => if h = sha (readFile f) then true else st.store h,
          log := st.log ++ [{ action := "backup", target := some f,
                              hash := some (sha (readFile f)),
                              status := "success" }],
          count := st.count + 1,
          totalSize := st.totalSize + (readFile f).length } := by
      unfold backupStep
      simp [hf]
    rw [hstep]
    rw [List.map_cons, List.nodup_cons] at hdist
    obtain ⟨hnotin, hdist'⟩ := hdist
    have hfresh' : ∀ g ∈ rest,
        (fun h => if h = sha (readFile f) then true else st.store h)
          (sha (readFile g)) = false := by
      intro g hg
      dsimp only
      by_cases hEq : sha (readFile g) = sha (readFile f)
      · exact absurd (hEq ▸ List.mem_map_of_mem _ hg) hnotin
      · rw [if_neg hEq]
        exact hfresh g (List.mem_cons_of_mem _ hg)
    obtain ⟨ihlog, ihcount⟩ := ih
      { store := fun h => if h = sha (readFile f) then true else st.store h,
        log := st.log ++ [{ action := "backup", target := some f,
                            hash := some (sha (readFile f)),
                            status := "success" }],
        count := st.count + 1,
        totalSize := st.totalSize + (readFile f).length } hfresh' hdist'
    constructor
    · rw [ihlog]
      simp
    · rw [ihcount]
      dsimp only
      simp only [List.length_cons]
      omega

/-- Counterexample to claim C5: `backupFiles` applies no lookback-window
filter.  With today `2026-10-11` and the default 7-day window starting
`2026-10-04`, the file `memory-2000-01-01.md` is outside the claimed
window, yet it matches the filename regex and is backed up with a
transaction entry.  Conversely, a dated file whose hash is already in the
backup store is skipped with **no** transaction entry at all, where the
spec requires one `backup` entry (success or failed) per file. -/
theorem c5_backup_window_counterexample :
    isDailyLogName "memory-2000-01-01.md" = true ∧
    specWindowContains "2026-10-04" "2026-10-11" "memory-2000-01-01.md" = false ∧
    (backupFiles (fun _ => "h1") (fun _ => "old")
        ⟨fun _ => false, [], 0, 0⟩ ["memory-2000-01-01.md"]).log =
      [{ action := "backup", target := some "memory-2000-01-01.md",
         hash := some "h1", status := "success" }] ∧
    (backupFiles (fun _ => "h1") (fun _ => "old")
        ⟨fun h => h == "h1", [], 0, 0⟩ ["memory-2000-01-01.md"]).log = [] := by
  refine ⟨rfl, by decide, rfl, rfl⟩

/-- C5, amended: Phase 0's `backupFiles` filters the directory listing by
the dated-filename regex only — there is no lookback-window restriction.
Starting from a fresh backup store with pairwise-distinct content hashes,
**every** file matching `memory-\d{4}-\d{2}-\d{2}\.md` is backed up,
regardless of how old its date is, with exactly one `backup`/`success`
transaction entry per file, in listing order. -/
theorem c5_backup_regex_filter (sha readFile : String → String)
    (st0 : BackupState) (files : List String)
    (hfresh : ∀ h, st0.store h = false)
    (hlog : st0.log = []) (hcount : st0.count = 0)
    (hdist : ((files.filter (fun f => isDailyLogName f)).map
        (fun f => sha (readFile f))).Nodup) :
    (backupFiles sha readFile st0 files).log =
        (files.filter (fun f => isDailyLogName f)).map
          (fun f => ({ action := "backup", target := some f,
                       hash := some (sha (readFile f)),
                       status := "success" } : TxnEntry)) ∧
    (backupFiles sha readFile st0 files).count =
        (files.filter (fun f => isDailyLogName f)).length := by
  obtain ⟨hl, hc⟩ := backupStep_foldl sha readFile
    (files.filter (fun f => isDailyLogName f)) st0 (fun f _ => hfresh _) hdist
  unfold backupFiles
  rw [hl, hc, hlog, hcount, List.nil_append, Nat.zero_add]
  exact ⟨rfl, rfl⟩

/-- Witness for `c5_backup_regex_filter` on a concrete listing: the two
dated files (of which one is decades outside any lookback window) are
backed up; the undated file is not. -/
theorem c5_backup_regex_filter_witness :
    (∀ h, (⟨fun _ => false, [], 0, 0⟩ : BackupState).store h = false) ∧
    (backupFiles (fun s => s) (fun f => "c-" ++ f) ⟨fun _ => false, [], 0, 0⟩
        ["memory-2026-10-10.md", "notes.md", "memory-2000-01-01.md"]).count = 2 := by
  refine ⟨fun _ => rfl, ?_⟩
  obtain ⟨-, hc⟩ := c5_backup_regex_filter (fun s => s) (fun f => "c-" ++ f)
    ⟨fun _ => false, [], 0, 0⟩
    ["memory-2026-10-10.md", "notes.md", "memory-2000-01-01.md"]
    (fun _ => rfl) rfl rfl (by decide)
  rw [hc]
  rfl

/-! ## Line-index bookkeeping (claim C10)

`parseSections` stores 0-based line indices; `replaceWithStubs` slices with
them inclusively; `generateEntry` prints them verbatim; only the Scanner's
occurrences are 1-indexed (`line: lineNum + 1`). -/

theorem enumFrom_spec {α : Type} (d : α) :
    ∀ (l : List α) (k : Nat) (p : Nat × α), p ∈ l.enumFrom k →
      k ≤ p.1 ∧ p.1 - k < l.length ∧ l.getD (p.1 - k) d = p.2 := by
  intro l
  induction l with
  | nil => intro k p hp; simp [List.enumFrom] at hp
  | cons a rest ih =>
    intro k p hp
    have hp' : p = (k, a) ∨ p ∈ rest.enumFrom (k + 1) := List.mem_cons.mp hp
    rcases hp' with hEq | hmem
    · rw [hEq]
      exact ⟨Nat.le_refl k, by simp, by simp⟩
    · obtain ⟨h1, h2, h3⟩ := ih (k + 1) p hmem
      refine ⟨by omega, by simp only [List.length_cons]; omega, ?_⟩
      have hx : p.1 - k = (p.1 - (k + 1)) + 1 := by omega
      rw [hx, List.getD_cons_succ]
      exact h3

theorem sectionsLoop_cons (lines : List String) (i : Nat)
    (h : Nat × Nat × String) (hs : List (Nat × Nat × String)) :
    sectionsLoop lines i (h :: hs) =
      (let startLine := h.1
       let endRaw :=
         match hs with
         | h2 :: _ => h2.1 - 1
         | [] => lines.length - 1
       let endLine := shrinkEnd lines startLine endRaw
       let sectionLines := (lines.drop startLine).take (endLine + 1 - startLine)
       let sectionContent := jsTrim (joinLines sectionLines)
       let rest := sectionsLoop lines (i + 1) hs
       if sectionContent.length = 0 then rest
       else
         { index := i, title := h.2.2, level := h.2.1, lineStart := startLine,
           lineEnd := endLine, content := sectionContent } :: rest) := rfl

theorem mem_sectionsLoop (lines : List String) :
    ∀ (hs : List (Nat × Nat × String)) (i : Nat) (s : MdSection),
      s ∈ sectionsLoop lines i hs →
      ∃ h ∈ hs, s.lineStart = h.1 ∧ s.level = h.2.1 ∧ s.title = h.2.2 := by
  intro hs
  induction hs with
  | nil => intro i s hmem; simp [sectionsLoop] at hmem
  | cons h rest ih =>
    intro i s hmem
    rw [sectionsLoop_cons] at hmem
    dsimp only at hmem
    split at hmem
    · obtain ⟨h', hm', hp⟩ := ih (i + 1) s hmem
      exact ⟨h', List.mem_cons_of_mem _ hm', hp⟩
    · rcases List.mem_cons.mp hmem with hEq | hmem'
      · refine ⟨h, List.mem_cons_self _ _, ?_⟩
        rw [hEq]
        exact ⟨rfl, rfl, rfl⟩
      · obtain ⟨h', hm', hp⟩ := ih (i + 1) s hmem'
        exact ⟨h', List.mem_cons_of_mem _ hm', hp⟩

theorem mem_findHeaders (lines : List String) (h : Nat × Nat × String)
    (hmem : h ∈ findHeaders lines) :
    headerMatch ((lines.getD h.1 "").toList) = some (h.2.1, h.2.2) ∧
      h.1 < lines.length := by
  unfold findHeaders at hmem
  rw [List.mem_filterMap] at hmem
  obtain ⟨p, hp, hfp⟩ := hmem
  have hspec := enumFrom_spec "" lines 0 p hp
  obtain ⟨-, hlt, hgetD⟩ := hspec
  rcases hm : headerMatch p.2.toList with - | lt
  · rw [hm] at hfp
    simp at hfp
  · rw [hm] at hfp
    simp only [Option.map_some'] at hfp
    have hh := Option.some.inj hfp
    subst hh
    simp only [Nat.sub_zero] at hlt hgetD
    refine ⟨?_, hlt⟩
    show headerMatch ((lines.getD p.1 "").toList) = some (lt.1, lt.2)
    rw [hgetD, hm]

/-- A concrete extraction for exercising Phase 4 slicing and Phase 3's
line-number rendering. -/
def c10Extraction : Extraction :=
  { id := "20261001-00"
    source_file := "memory-2026-10-01.md"
    source_line_start := 2
    source_line_end := 4
    section_title := "T"
    primary_topic := "notes"
    secondary_topics := []
    full_content := "body"
    content_hash := "deadbeef"
    extracted_at := "2026-10-01T10:00:00.000Z" }

/-- C10: line indices are 0-based end to end.  (1) every parsed section's
`lineStart` is the 0-based index of its header line in the split line array
(or it is the synthetic whole-file section spanning `[0, lines.length-1]`);
(2) a header on the very first line yields `lineStart = 0` (concrete file);
(3) the file's lines decompose around the inclusive 0-based slice
`[source_line_start .. source_line_end]`, which has exactly
`end+1-start` lines, and Phase 4's stub replacement substitutes the stub
for precisely that slice; (4) Phase 3 writes the same 0-based numbers
verbatim into the `#L<lineStart>` link and the `(lines <start>-<end>)`
annotation of the generated entry; (5) in contrast, every hashtag
occurrence the Scanner records has a 1-indexed line number `k + 1` for a
0-based line index `k`. -/
theorem c10_zero_based_consistency (content filename file tag : String)
    (lines : List String) (e : Extraction) (stub : List String)
    (hse : e.source_line_start ≤ e.source_line_end)
    (hel : e.source_line_end < lines.length) :
    (∀ s ∈ parseSections content filename,
      headerMatch
          ((((splitOnChar '\n' content.toList).map (fun cs => String.mk cs)).getD
            s.lineStart "").toList) = some (s.level, s.title) ∨
      (s.lineStart = 0 ∧
        s.lineEnd = (splitOnChar '\n' content.toList).length - 1)) ∧
    (parseSections "## A\nbody\n\n## B\ntext" "f.md").map
        (fun s => (s.lineStart, s.lineEnd)) = [(0, 1), (3, 4)] ∧
    lines = lines.take e.source_line_start ++
        ((lines.drop e.source_line_start).take
          (e.source_line_end + 1 - e.source_line_start)) ++
        lines.drop (e.source_line_end + 1) ∧
    ((lines.drop e.source_line_start).take
        (e.source_line_end + 1 - e.source_line_start)).length =
      e.source_line_end + 1 - e.source_line_start ∧
    replaceSectionWithStub lines e stub =
      lines.take e.source_line_start ++ stub ++
        lines.drop (e.source_line_end + 1) ∧
    ("### " ++ (extractDateFromFile e.source_file ++ (" â€” [" ++ (e.source_file ++
        ("](../" ++ (e.source_file ++ ("#L" ++ (toString e.source_line_start ++ ")"))))))))
      ∈ generateEntry e ∧
    ("**Source:** " ++ (e.source_file ++ (" (lines " ++ (toString e.source_line_start ++
        ("-" ++ (toString e.source_line_end ++ ")")))))) ∈ generateEntry e ∧
    (∀ occ ∈ occurrencesOfTag (extractHashtags content file) tag,
      ∃ k, k < (splitOnChar '\n' content.toList).length ∧ occ.line = k + 1) := by
  refine ⟨?_, rfl, ?_, ?_, rfl, ?_, ?_, ?_⟩
  · intro s hs
    unfold parseSections at hs
    dsimp only at hs
    split at hs
    · rw [List.mem_singleton] at hs
      rw [hs]
      right
      exact ⟨rfl, by simp⟩
    · obtain ⟨h, hmem, hstart, hlevel, htitle⟩ :=
        mem_sectionsLoop _ _ _ _ hs
      obtain ⟨hhm, -⟩ := mem_findHeaders _ _ hmem
      left
      rw [hstart, hlevel, htitle]
      exact hhm
  · have hsplit2 : lines.drop e.source_line_start =
        (lines.drop e.source_line_start).take
          (e.source_line_end + 1 - e.source_line_start) ++
        (lines.drop e.source_line_start).drop
          (e.source_line_end + 1 - e.source_line_start) :=
      (List.take_append_drop _ _).symm
    have hdd : (lines.drop e.source_line_start).drop
        (e.source_line_end + 1 - e.source_line_start) =
        lines.drop (e.source_line_end + 1) := by
      rw [List.drop_drop]
      congr 1
      omega
    calc lines
        = lines.take e.source_line_start ++ lines.drop e.source_line_start :=
          (List.take_append_drop _ _).symm
      _ = lines.take e.source_line_start ++
            ((lines.drop e.source_line_start).take
              (e.source_line_end + 1 - e.source_line_start) ++
             (lines.drop e.source_line_start).drop
              (e.source_line_end + 1 - e.source_line_start)) :=
          congrArg (fun l => lines.take e.source_line_start ++ l) hsplit2
      _ = lines.take e.source_line_start ++
            ((lines.drop e.source_line_start).take
              (e.source_line_end + 1 - e.source_line_start) ++
             lines.drop (e.source_line_end + 1)) :=
          congrArg (fun l => lines.take e.source_line_start ++
            ((lines.drop e.source_line_start).take
              (e.source_line_end + 1 - e.source_line_start) ++ l)) hdd
      _ = lines.take e.source_line_start ++
            (lines.drop e.source_line_start).take
              (e.source_line_end + 1 - e.source_line_start) ++
            lines.drop (e.source_line_end + 1) :=
          (List.append_assoc _ _ _).symm
  · rw [List.length_take, List.length_drop]
    omega
  · unfold generateEntry
    dsimp only
    exact List.mem_append_left _ (List.mem_append_left _ (List.mem_cons_self _ _))
  · unfold generateEntry
    dsimp only
    refine List.mem_append_right _ ?_
    exact List.mem_cons_of_mem _ (List.mem_cons_of_mem _ (List.mem_cons_self _ _))
  · intro occ hocc
    unfold extractHashtags at hocc
    rw [occurrencesOfTag_extract_fold] at hocc
    simp only [occurrencesOfTag, List.nil_append] at hocc
    rw [List.mem_flatMap] at hocc
    obtain ⟨p, hp, hoccp⟩ := hocc
    rw [List.mem_map] at hoccp
    obtain ⟨mt, -, hmk⟩ := hoccp
    refine ⟨p.1, ?_, ?_⟩
    · have hspec := enumFrom_spec ([] : List Char) (splitOnChar '\n' content.toList) 0 p hp
      simpa using hspec.2.1
    · rw [← hmk]
      rfl

/-- Witness for `c10_zero_based_consistency` at a concrete extraction and
file: the two hypotheses hold for the slice `[2 .. 4]` of a six-line file,
and a header on line 0 parses with `lineStart = 0`. -/
theorem c10_zero_based_consistency_witness :
    c10Extraction.source_line_start ≤ c10Extraction.source_line_end ∧
    c10Extraction.source_line_end <
      (["l0", "l1", "l2", "l3", "l4", "l5"] : List String).length ∧
    (parseSections "## A\nbody\n\n## B\ntext" "f.md").map
        (fun s => (s.lineStart, s.lineEnd)) = [(0, 1), (3, 4)] := by
  refine ⟨by decide, by decide, ?_⟩
  exact (c10_zero_based_consistency "x #tag" "f.md" "daily.md" "tag"
      ["l0", "l1", "l2", "l3", "l4", "l5"] c10Extraction ["STUB"]
      (by decide) (by decide)).2.1

end MemoryPolisher
